import Mathlib

set_option maxRecDepth 20000

/-!
# Shallow embedding of the SQL-Server → Databricks DDL converter

This file embeds the parsing and rendering pipeline of
`sql_to_databricks_converter.py` as executable Lean definitions and proves
properties of the embedding.  Character-level scanning is modelled on
`List Char`; the regular expressions of the source are modelled by dedicated
backtracking matchers whose choice order mirrors Python's `re` engine
(greedy quantifiers try the longest extent first, optional pieces try to
consume first, alternations are tried left to right).  ASCII semantics are
assumed for case conversion and whitespace, matching the inputs handled by
the converter.
-/

/-- Python `\s` (ASCII): space, tab, newline, carriage return, vertical tab, form feed. -/
def pySpace (c : Char) : Bool :=
  c = ' ' || c = '\t' || c = '\n' || c = '\r' || c = '\x0b' || c = '\x0c'

/-- ASCII upper-casing of a character, the effect of Python `str.upper` on ASCII text. -/
def asciiUpper (c : Char) : Char :=
  if 'a' ≤ c ∧ c ≤ 'z' then Char.ofNat (c.toNat - 32) else c

/-- ASCII lower-casing of a character, the effect of Python `str.lower` on ASCII text. -/
def asciiLower (c : Char) : Char :=
  if 'A' ≤ c ∧ c ≤ 'Z' then Char.ofNat (c.toNat + 32) else c

/-- Upper-case a character list (Python `s.upper()`). -/
def upperL (l : List Char) : List Char := l.map asciiUpper

/-- Lower-case a character list (Python `s.lower()`). -/
def lowerL (l : List Char) : List Char := l.map asciiLower

/-- Python `str.strip()`: drop whitespace from both ends. -/
def pyStrip (l : List Char) : List Char :=
  ((l.dropWhile pySpace).reverse.dropWhile pySpace).reverse

/-- Python's substring test `needle in hay`. -/
def containsSub (hay needle : List Char) : Bool :=
  if needle.isPrefixOf hay then true
  else
    match hay with
    | [] => false
    | _ :: t => containsSub t needle

/-- Case-insensitive match of a (upper-cased) literal pattern at the head of the
text, returning the remainder; models a literal inside a `re.IGNORECASE` pattern. -/
def ciMatch : List Char → List Char → Option (List Char)
  | [], s => some s
  | _ :: _, [] => none
  | p :: ps, c :: cs => if asciiUpper c = p then ciMatch ps cs else none

/-! ## Backtracking combinators

These model the search order of Python's backtracking regex engine for the
specific constructs appearing in the source's patterns.  Each takes a
continuation `k` for the rest of the pattern; a quantifier tries its longest
extent first and retries shorter extents when `k` fails. -/

/-- Greedy `p+`/`p*` body: `acc` is what the quantifier has consumed so far.
Extending is tried first; on failure of the continuation the current extent
is handed to `k` (Python's backtracking order for greedy quantifiers). -/
def greedyAux {α : Type} (p : Char → Bool) (k : List Char → List Char → Option α)
    (acc : List Char) : List Char → Option α
  | [] => k acc []
  | c :: rest =>
    if p c then
      match greedyAux p k (acc ++ [c]) rest with
      | some r => some r
      | none => k acc (c :: rest)
    else k acc (c :: rest)

/-- Greedy `p+` (at least one character). -/
def greedyPlus {α : Type} (p : Char → Bool) (k : List Char → List Char → Option α)
    (s : List Char) : Option α :=
  match s with
  | [] => none
  | c :: rest => if p c then greedyAux p k [c] rest else none

/-- Greedy `p*` (possibly empty). -/
def greedyStar {α : Type} (p : Char → Bool) (k : List Char → List Char → Option α)
    (s : List Char) : Option α :=
  greedyAux p k [] s

/-- Optional literal character `c?`: consuming is tried first, as Python does. -/
def optCh {α : Type} (c : Char) (k : List Char → Option α) (s : List Char) : Option α :=
  match s with
  | [] => k []
  | x :: rest =>
    if x = c then
      match k rest with
      | some r => some r
      | none => k s
    else k s

/-- `[a-zA-Z_]` of the column regex. -/
def identChar (c : Char) : Bool :=
  ('a' ≤ c && c ≤ 'z') || ('A' ≤ c && c ≤ 'Z') || c = '_'

/-- `[^\[\]]` of the name-capturing groups. -/
def nonBracket (c : Char) : Bool := !(c = '[' || c = ']')

/-- The optional parameter group `(?:\(([^)]+)\))?` of the column regex.
`[^)]+` must reach the very next `)` (any shorter extent is followed by a
non-`)` character), so the inner run is the maximal `)`-free run; the group
falls back to consuming nothing when that fails or when the continuation
rejects it. -/
def parenGroup {α : Type} (k : Option (List Char) → List Char → Option α)
    (s : List Char) : Option α :=
  match s with
  | c :: rest =>
    if c = '(' then
      let inner := rest.takeWhile (fun x => x != ')')
      match rest.drop inner.length with
      | c2 :: rest2 =>
        if c2 = ')' then
          if inner = [] then k none s
          else
            match k (some inner) rest2 with
            | some r => some r
            | none => k none s
        else k none s
      | [] => k none s
    else k none s
  | [] => k none []

/-- Tail `\]?\s*(.*)` of the column regex, with the three groups captured so
far; `(.*)` without `re.DOTALL` stops at a newline. -/
def cmTail (g1 g2 : List Char) (g3 : Option (List Char)) (s8 : List Char) :
    Option (List Char × List Char × Option (List Char) × List Char) :=
  optCh ']' (fun s8b =>
    greedyStar pySpace (fun _ s9 =>
      some (g1, g2, g3, s9.takeWhile (fun c => c != '\n'))) s8b) s8

/-- Optional parameter group `(?:\(([^)]+)\))?` of the column regex followed
by the tail. -/
def cmAfterType (g1 g2 : List Char) (s6 : List Char) :
    Option (List Char × List Char × Option (List Char) × List Char) :=
  parenGroup (fun g3 s7 => cmTail g1 g2 g3 s7) s6

/-- Segment `\[?([a-zA-Z_]+)...` of the column regex (type group onwards). -/
def cmType (g1 : List Char) (s4 : List Char) :
    Option (List Char × List Char × Option (List Char) × List Char) :=
  optCh '[' (fun s5 => greedyPlus identChar (fun g2 s6 => cmAfterType g1 g2 s6) s5) s4

/-- Segment `\]?\s+...` of the column regex after the name group. -/
def cmSpace (g1 : List Char) (s2 : List Char) :
    Option (List Char × List Char × Option (List Char) × List Char) :=
  optCh ']' (fun s3 => greedyPlus pySpace (fun _ s4 => cmType g1 s4) s3) s2

/-- The column regex
`\[?([^\[\]]+)\]?\s+\[?([a-zA-Z_]+)(?:\(([^)]+)\))?\]?\s*(.*)`
from `_parse_columns`, returning the four captured groups
(name, type, params, modifiers), assembled from the segments above. -/
def columnMatch (s : List Char) :
    Option (List Char × List Char × Option (List Char) × List Char) :=
  optCh '[' (fun s1 => greedyPlus nonBracket (fun g1 s2 => cmSpace g1 s2) s1) s

/-- A parsed column, the dict built in `_parse_columns`. -/
structure ColumnDefinition where
  name : String
  type : String
  params : Option String
  nullable : Bool
deriving DecidableEq, Repr

/-- A parsed table, the dict built in `_parse_single_table`. -/
structure TableDefinition where
  schema : Option String
  name : String
  columns : List ColumnDefinition
deriving DecidableEq, Repr

/-- Keywords of the skip regex
`^\s*(CONSTRAINT|PRIMARY|UNIQUE|FOREIGN|CHECK|PAD_INDEX|STATISTICS_NORECOMPUTE|IGNORE_DUP_KEY|ALLOW_ROW_LOCKS|ALLOW_PAGE_LOCKS)`. -/
def constraintKeywords : List String :=
  ["CONSTRAINT", "PRIMARY", "UNIQUE", "FOREIGN", "CHECK", "PAD_INDEX",
   "STATISTICS_NORECOMPUTE", "IGNORE_DUP_KEY", "ALLOW_ROW_LOCKS", "ALLOW_PAGE_LOCKS"]

/-- Keywords of the constraint-option check on line 155 of the source. -/
def optionKeywords : List String :=
  ["PAD_INDEX", "STATISTICS_NORECOMPUTE", "IGNORE_DUP_KEY", "ALLOW_ROW_LOCKS",
   "ALLOW_PAGE_LOCKS"]

/-- The skip regex of `_parse_columns`: after optional leading whitespace the
line starts, case-insensitively, with one of the keywords.  (The alternatives
contain no whitespace characters, so the greedy `\s*` is equivalent to
dropping the maximal whitespace run.) -/
def isConstraintStart (l : List Char) : Bool :=
  constraintKeywords.any (fun kw => kw.data.isPrefixOf (upperL (l.dropWhile pySpace)))

/-- `'=' in line and any(opt in line.upper() for opt in [...])`. -/
def isOptionAssignment (l : List Char) : Bool :=
  l.contains '=' && optionKeywords.any (fun kw => containsSub (upperL l) kw.data)

/-- Construction of the column dict from the four regex groups;
`nullable = 'NOT NULL' not in modifiers.upper()`. -/
def buildColumn (n t : List Char) (p : Option (List Char)) (m : List Char) :
    ColumnDefinition :=
  ⟨String.mk n, String.mk (lowerL t), p.map (fun x => String.mk x),
   !(containsSub (upperL m) ("NOT NULL".data))⟩

/-- The per-fragment body of the loop in `_parse_columns`: strip, drop empty
lines, drop constraint/option fragments, then run the column regex. -/
def processLine (line : List Char) : Option ColumnDefinition :=
  let l := pyStrip line
  if l = [] then none
  else if isConstraintStart l then none
  else if isOptionAssignment l then none
  else
    match columnMatch l with
    | some (n, t, p, m) => some (buildColumn n t p m)
    | none => none

/-- The character loop of `_smart_split`: split at commas at parenthesis
depth 0, strip each part, drop a trailing empty accumulator. -/
def smartSplitGo (d : Int) (cur : List Char) (parts : List (List Char)) :
    List Char → List (List Char)
  | [] => if cur = [] then parts else parts ++ [pyStrip cur]
  | c :: rest =>
    if c = '(' then smartSplitGo (d + 1) (cur ++ [c]) parts rest
    else if c = ')' then smartSplitGo (d - 1) (cur ++ [c]) parts rest
    else if c = ',' ∧ d = 0 then smartSplitGo d [] (parts ++ [pyStrip cur]) rest
    else smartSplitGo d (cur ++ [c]) parts rest

/-- `_smart_split`. -/
def smart_split (s : List Char) : List (List Char) := smartSplitGo 0 [] [] s

/-- Append the parsed value when parsing succeeded, keep the accumulator
otherwise — the `if parsed: out.append(parsed)` step of the source's loops. -/
def appendIfSome {β : Type} (acc : List β) (o : Option β) : List β :=
  match o with
  | some y => acc ++ [y]
  | none => acc

/-- `_parse_columns`: smart-split the body and accumulate the fragments that
parse as columns. -/
def parse_columns (raw : List Char) : List ColumnDefinition :=
  (smart_split raw).foldl (fun acc line => appendIfSome acc (processLine line)) []

/-! ## Constraint stripping

Model of the substitution
`re.sub(r',?\s*CONSTRAINT\s+\[?[^\]]*\]?\s+(PRIMARY KEY|UNIQUE|FOREIGN KEY|CHECK).*?(?:WITH\s*\([^)]*\))?.*?(?=,\s*\[|$)', '', columns_raw, flags=re.DOTALL | re.IGNORECASE)`.
The flags are DOTALL and IGNORECASE but not MULTILINE, so inside the pattern
`$` matches only at the end of the text or just before a final newline. -/

/-- The alternation `(PRIMARY KEY|UNIQUE|FOREIGN KEY|CHECK)`, tried left to
right. -/
def altKeyword (s : List Char) : Option (List Char) :=
  match ciMatch "PRIMARY KEY".data s with
  | some r => some r
  | none =>
    match ciMatch "UNIQUE".data s with
    | some r => some r
    | none =>
      match ciMatch "FOREIGN KEY".data s with
      | some r => some r
      | none => ciMatch "CHECK".data s

/-- `WITH\s*\([^)]*\)`: the greedy `[^)]*` must reach the very next `)`. -/
def withClause (s : List Char) : Option (List Char) :=
  match ciMatch "WITH".data s with
  | none => none
  | some r =>
    match r.dropWhile pySpace with
    | '(' :: r1 =>
      match r1.dropWhile (fun c => c != ')') with
      | ')' :: r2 => some r2
      | _ => none
    | _ => none

/-- Is the lookahead `,\s*\[` satisfied at the head of the text? -/
def bracketAfterComma (s : List Char) : Bool :=
  match s with
  | ',' :: rest =>
    match rest.dropWhile pySpace with
    | '[' :: _ => true
    | _ => false
  | _ => false

/-- The tail `.*?(?=,\s*\[|$)` of the constraint pattern: with DOTALL the lazy
star advances to the first position where the lookahead holds; `$` (no
MULTILINE) holds at the end of the text and just before a final newline, so
the scan always terminates at the latest at the end.  Returns the remainder
from the match end. -/
def lazyToLookahead : List Char → List Char
  | [] => []
  | c :: rest =>
    if bracketAfterComma (c :: rest) then c :: rest
    else if c = '\n' ∧ rest = [] then c :: rest
    else lazyToLookahead rest

/-- Attempt of the whole constraint pattern at the current position, returning
the remainder after the match.  The first lazy `.*?` starts at zero width, so
the optional `WITH` clause participates only when it starts immediately after
the alternation keyword; in either case the final lazy star runs to the first
lookahead position, which always exists (`$` at the end). -/
def matchConstraintAt (s : List Char) : Option (List Char) :=
  optCh ',' (fun s1 =>
    greedyStar pySpace (fun _ s2 =>
      match ciMatch "CONSTRAINT".data s2 with
      | none => none
      | some s3 =>
        greedyPlus pySpace (fun _ s4 =>
          optCh '[' (fun s5 =>
            greedyStar (fun c => c != ']') (fun _ s6 =>
              optCh ']' (fun s7 =>
                greedyPlus pySpace (fun _ s8 =>
                  match altKeyword s8 with
                  | none => none
                  | some s9 =>
                    match withClause s9 with
                    | some s10 => some (lazyToLookahead s10)
                    | none => some (lazyToLookahead s9)) s7) s6) s5) s4) s3) s1) s

/-- `re.sub` scanning: try the pattern at every position from the left,
removing each match and continuing after it.  The fuel argument is the length
of the text; every match consumes at least the `CONSTRAINT` literal, so the
fuel never runs out. -/
def stripConstraintsGo : Nat → List Char → List Char
  | 0, s => s
  | _ + 1, [] => []
  | fuel + 1, c :: rest =>
    match matchConstraintAt (c :: rest) with
    | some r => stripConstraintsGo fuel r
    | none => c :: stripConstraintsGo fuel rest

/-- The constraint-stripping substitution applied to a column body. -/
def stripConstraints (s : List Char) : List Char := stripConstraintsGo s.length s

/-! ## Balanced-span search and table parsing -/

/-- The character loop of `_parse_single_table` that locates the column body:
`start` is set at the first `(` seen at depth 0, the end is the `)` that
brings the depth back to 0 afterwards; if the loop completes without that,
the result is not-found. -/
def findSpanGo (d : Int) (start : Option Nat) (i : Nat) : List Char → Option (Nat × Nat)
  | [] => none
  | c :: rest =>
    if c = '(' then
      match start with
      | none =>
        if d = 0 then findSpanGo (d + 1) (some (i + 1)) (i + 1) rest
        else findSpanGo (d + 1) none (i + 1) rest
      | some st => findSpanGo (d + 1) (some st) (i + 1) rest
    else if c = ')' then
      match start with
      | some st => if d - 1 = 0 then some (st, i) else findSpanGo (d - 1) (some st) (i + 1) rest
      | none => findSpanGo (d - 1) none (i + 1) rest
    else findSpanGo d start (i + 1) rest

/-- The balanced-span search over a whole fragment. -/
def findBalancedSpan (s : List Char) : Option (Nat × Nat) := findSpanGo 0 none 0 s

/-- The schema-qualified name regex
`\[?([^\[\]]+)\]?\.\[?([^\[\]]+)\]?\s*\(` of `_parse_single_table`,
returning the two captured groups. -/
def tableNameQualified (s : List Char) : Option (List Char × List Char) :=
  optCh '[' (fun s1 =>
    greedyPlus nonBracket (fun g1 s2 =>
      optCh ']' (fun s3 =>
        match s3 with
        | '.' :: s4 =>
          optCh '[' (fun s5 =>
            greedyPlus nonBracket (fun g2 s6 =>
              optCh ']' (fun s7 =>
                greedyStar pySpace (fun _ s8 =>
                  match s8 with
                  | '(' :: _ => some (g1, g2)
                  | _ => none) s7) s6) s5) s4
        | _ => none) s2) s1) s

/-- The bare name regex `\[?([^\[\]]+)\]?\s*\(`, tried when the qualified one
fails. -/
def tableNameBare (s : List Char) : Option (List Char) :=
  optCh '[' (fun s1 =>
    greedyPlus nonBracket (fun g1 s2 =>
      optCh ']' (fun s3 =>
        greedyStar pySpace (fun _ s4 =>
          match s4 with
          | '(' :: _ => some g1
          | _ => none) s3) s2) s1) s

/-- `_parse_single_table`: name extraction, balanced-span search, constraint
stripping, column parsing. -/
def parse_single_table (s : List Char) : Option TableDefinition :=
  let nameInfo : Option (Option (List Char) × List Char) :=
    match tableNameQualified s with
    | some (sch, nm) => some (some sch, nm)
    | none =>
      match tableNameBare s with
      | some nm => some (none, nm)
      | none => none
  match nameInfo with
  | none => none
  | some (sch, nm) =>
    match findBalancedSpan s with
    | none => none
    | some (st, en) =>
      let columnsRaw := (s.drop st).take (en - st)
      some ⟨sch.map (fun x => String.mk x), String.mk nm,
            parse_columns (stripConstraints columnsRaw)⟩

/-! ## Preprocessing

The four substitutions at the top of `parse_sql_server_ddl`.  The first three
use MULTILINE (so `^`/`$` anchor at line boundaries) and IGNORECASE; the
fourth uses DOTALL. -/

/-- One attempt of `^GO\s*$` at a line start.  The greedy `\s*` may span
newlines; `$` then forces the match to end at the end of the text or just
before the last newline of the whitespace run.  Returns whether the last
consumed character was a newline (so the scanner knows whether the position
after the match is a line start) and the remainder. -/
def matchGoLine (s : List Char) : Option (Bool × List Char) :=
  match ciMatch "GO".data s with
  | none => none
  | some rest =>
    let run := rest.takeWhile pySpace
    let after := rest.drop run.length
    if after.isEmpty then some (false, [])
    else
      let b := (run.reverse.takeWhile (fun c => c != '\n')).reverse
      if b.length = run.length then none
      else
        let consumed := run.take (run.length - b.length - 1)
        some (consumed.getLast? == some '\n', '\n' :: (b ++ after))

/-- One attempt of `^USE\s+.*$` (or `^SET\s+.*$`) at a line start: the keyword,
at least one whitespace character (greedily spanning newlines), then `.*` up
to the next newline.  The match never ends in a newline. -/
def matchKwLine (kw : String) (s : List Char) : Option (Bool × List Char) :=
  match ciMatch kw.data s with
  | none => none
  | some rest =>
    let run := rest.takeWhile pySpace
    if run.isEmpty then none
    else
      let after := rest.drop run.length
      some (false, after.dropWhile (fun c => c != '\n'))

/-- Scanner for the line-anchored substitutions: tries the matcher at every
line start, copies other characters through. -/
def lineSubGo (m : List Char → Option (Bool × List Char)) :
    Nat → Bool → List Char → List Char
  | 0, _, s => s
  | _ + 1, _, [] => []
  | fuel + 1, atStart, c :: rest =>
    if atStart then
      match m (c :: rest) with
      | some (nl, r) => lineSubGo m fuel nl r
      | none => c :: lineSubGo m fuel (c == '\n') rest
    else c :: lineSubGo m fuel (c == '\n') rest

/-- A whole line-anchored substitution (the start of the text is a line
start). -/
def lineSub (m : List Char → Option (Bool × List Char)) (s : List Char) : List Char :=
  lineSubGo m s.length true s

/-- Lazy search for the closing `*/` of a block comment. -/
def findCommentEnd : List Char → Option (List Char)
  | [] => none
  | '*' :: '/' :: r => some r
  | _ :: r => findCommentEnd r

/-- The substitution `re.sub(r'/\*.*?\*/', '', content, flags=re.DOTALL)`:
each `/*` opens a comment removed through the first following `*/`; an
unterminated comment passes through unchanged. -/
def commentSubGo : Nat → List Char → List Char
  | 0, s => s
  | _ + 1, [] => []
  | fuel + 1, c :: rest =>
    if c = '/' then
      match rest with
      | '*' :: r =>
        match findCommentEnd r with
        | some rem => commentSubGo fuel rem
        | none => c :: commentSubGo fuel rest
      | _ => c :: commentSubGo fuel rest
    else c :: commentSubGo fuel rest

/-- The preprocessing pipeline of `parse_sql_server_ddl` (lines 70–73 of the
source): remove GO lines, USE lines, SET lines, then block comments. -/
def preprocess (s : List Char) : List Char :=
  let s1 := lineSub matchGoLine s
  let s2 := lineSub (matchKwLine "USE") s1
  let s3 := lineSub (matchKwLine "SET") s2
  commentSubGo s3.length s3

/-- One attempt of the split pattern `CREATE\s+TABLE\s+` (IGNORECASE) at the
current position, returning the remainder after the separator. -/
def matchCreateTable (s : List Char) : Option (List Char) :=
  match ciMatch "CREATE".data s with
  | none => none
  | some s1 =>
    let run1 := s1.takeWhile pySpace
    if run1.isEmpty then none
    else
      match ciMatch "TABLE".data (s1.drop run1.length) with
      | none => none
      | some s2 =>
        let run2 := s2.takeWhile pySpace
        if run2.isEmpty then none else some (s2.drop run2.length)

/-- `re.split(r'CREATE\s+TABLE\s+', content, flags=re.IGNORECASE)`: scan left
to right for non-overlapping separator matches. -/
def splitCreateTableGo : Nat → List Char → List Char → List (List Char)
  | 0, cur, s => [cur ++ s]
  | _ + 1, cur, [] => [cur]
  | fuel + 1, cur, c :: rest =>
    match matchCreateTable (c :: rest) with
    | some r => cur :: splitCreateTableGo fuel [] r
    | none => splitCreateTableGo fuel (cur ++ [c]) rest

/-- The split of the preprocessed document into per-table fragments. -/
def splitCreateTable (s : List Char) : List (List Char) :=
  splitCreateTableGo s.length [] s

/-- The per-table fragments consumed by the parse loop (`tables_raw[1:]`). -/
def tableFragments (content : List Char) : List (List Char) :=
  (splitCreateTable (preprocess content)).drop 1

/-- `parse_sql_server_ddl`: preprocess, split, parse each fragment, keep the
successfully parsed tables in order. -/
def parse_sql_server_ddl (content : String) : List TableDefinition :=
  (tableFragments content.data).foldl
    (fun acc f => appendIfSome acc (parse_single_table f)) []

/-! ## Type mapping and DDL generation -/

/-- The static `type_mapping` dict of the converter. -/
def type_mapping : List (String × String) :=
  [("int", "INT"), ("bigint", "BIGINT"), ("smallint", "SMALLINT"),
   ("tinyint", "TINYINT"), ("bit", "BOOLEAN"), ("decimal", "DECIMAL"),
   ("numeric", "DECIMAL"), ("float", "DOUBLE"), ("real", "FLOAT"),
   ("money", "DECIMAL(19,4)"), ("smallmoney", "DECIMAL(10,4)"),
   ("char", "STRING"), ("varchar", "STRING"), ("text", "STRING"),
   ("nchar", "STRING"), ("nvarchar", "STRING"), ("ntext", "STRING"),
   ("date", "DATE"), ("datetime", "TIMESTAMP"), ("datetime2", "TIMESTAMP"),
   ("datetimeoffset", "TIMESTAMP"), ("smalldatetime", "TIMESTAMP"),
   ("time", "STRING"), ("timestamp", "BINARY"), ("binary", "BINARY"),
   ("varbinary", "BINARY"), ("image", "BINARY"), ("uniqueidentifier", "STRING"),
   ("xml", "STRING"), ("sql_variant", "STRING"), ("geography", "STRING"),
   ("geometry", "STRING"), ("hierarchyid", "STRING")]

/-- Rest of the Python integer-literal grammar after the sign: digits with
single underscores strictly between digits. -/
def digitsURest : List Char → Bool
  | [] => true
  | ['_'] => false
  | '_' :: c :: rest => c.isDigit && digitsURest rest
  | c :: rest => c.isDigit && digitsURest rest

/-- Nonempty digit run with underscore separators. -/
def digitsU : List Char → Bool
  | [] => false
  | c :: rest => c.isDigit && digitsURest rest

/-- Numeric value of a digit run (underscores removed beforehand). -/
def digitsVal (l : List Char) : Nat :=
  l.foldl (fun a c => 10 * a + (c.toNat - 48)) 0

/-- Model of Python `int(str)` on ASCII text: strip whitespace, optional
sign, digits with underscores between them; `none` models `ValueError`. -/
def pyInt (p : String) : Option Int :=
  match pyStrip p.data with
  | '+' :: r => if digitsU r then some (digitsVal (r.filter (fun c => c != '_')) : Int) else none
  | '-' :: r => if digitsU r then some (-(digitsVal (r.filter (fun c => c != '_')) : Int)) else none
  | r => if digitsU r then some (digitsVal (r.filter (fun c => c != '_')) : Int) else none

/-- Python truthiness of the optional params string: `None` and `''` are
falsy. -/
def truthyParams : Option String → Bool
  | none => false
  | some p => !(p == "")

/-- `convert_data_type`. -/
def convert_data_type (t : String) (params : Option String) : String :=
  let base := String.mk (lowerL t.data)
  if (base = "decimal" ∨ base = "numeric") ∧ truthyParams params then
    "DECIMAL(" ++ params.getD "" ++ ")"
  else if base = "char" ∨ base = "varchar" ∨ base = "nchar" ∨ base = "nvarchar" then
    "STRING"
  else if base = "float" ∧ truthyParams params then
    match pyInt (params.getD "") with
    | some n => if n < 25 then "FLOAT" else "DOUBLE"
    | none => "DOUBLE"
  else (type_mapping.lookup base).getD "STRING"

/-- Python truthiness of the optional schema in `generate_databricks_ddl`. -/
def schemaTruthy : Option String → Bool
  | none => false
  | some s => !(s == "")

/-- One rendered column line `  name TYPE[ NOT NULL]`. -/
def columnLine (c : ColumnDefinition) : String :=
  "  " ++ c.name ++ " " ++ convert_data_type c.type c.params ++
    (if c.nullable then "" else " NOT NULL")

/-- Python `',\n'.join(strs)`: the separator goes between consecutive
elements. -/
def joinCommaNl : List String → String
  | [] => ""
  | [s] => s
  | s :: rest => s ++ ",\n" ++ joinCommaNl rest

/-- The rendered column section, `',\n'.join(column_defs)`. -/
def columnSection (t : TableDefinition) : String :=
  joinCommaNl (t.columns.map columnLine)

/-- `generate_databricks_ddl`. -/
def generate_databricks_ddl (t : TableDefinition) (useCatalog : Bool) : String :=
  let fullName :=
    if useCatalog && schemaTruthy t.schema then t.schema.getD "" ++ "." ++ t.name
    else t.name
  "CREATE TABLE IF NOT EXISTS " ++ fullName ++ " (" ++ "\n" ++ columnSection t ++
    "\n" ++ ")" ++ "\n" ++ "USING DELTA;"

/-- The end-to-end input of the spec's testable property. -/
def c1input : String :=
  "CREATE TABLE dbo.Orders ( [Id] int NOT NULL, [Amount] decimal(10,2) NULL, CONSTRAINT PK_Orders PRIMARY KEY (Id) )"

/-- The table the converter actually produces for `c1input`: note the trailing
space captured into the table name by the greedy `[^\[\]]+` group, which can
extend up to the character before the opening parenthesis. -/
def c1table : TableDefinition :=
  ⟨some "dbo", "Orders ",
   [⟨"Id", "int", none, false⟩, ⟨"Amount", "decimal", some "10,2", true⟩]⟩

/-! ## General helper lemmas -/

/-- Computation rule of `appendIfSome` on `none`. -/
theorem appendIfSome_none {β : Type} (acc : List β) : appendIfSome acc none = acc := rfl

/-- Computation rule of `appendIfSome` on `some`. -/
theorem appendIfSome_some {β : Type} (acc : List β) (y : β) :
    appendIfSome acc (some y) = acc ++ [y] := rfl

/-- The accumulate-if-parsed loop of the source equals `filterMap`. -/
theorem foldl_append_eq_filterMap {α β : Type} (f : α → Option β) (l : List α) :
    ∀ acc : List β,
      l.foldl (fun a x => appendIfSome a (f x)) acc = acc ++ l.filterMap f := by
  induction l with
  | nil => intro acc; simp
  | cons x l ih =>
    intro acc
    simp only [List.foldl_cons, List.filterMap_cons]
    cases h : f x with
    | none => rw [appendIfSome_none, ih]
    | some y =>
      rw [appendIfSome_some, ih, List.append_assoc]
      rfl

/-- `containsSub` decides the sublist-as-contiguous-run relation, i.e. Python's
`needle in hay`. -/
theorem containsSub_infix_iff (needle : List Char) (hay : List Char) :
    containsSub hay needle = true ↔ needle <:+: hay := by
  induction hay with
  | nil =>
    rw [containsSub]
    by_cases h : needle.isPrefixOf ([] : List Char) = true
    · rw [if_pos h]
      exact ⟨fun _ => (List.isPrefixOf_iff_prefix.mp h).isInfix, fun _ => rfl⟩
    · rw [if_neg h]
      constructor
      · intro hc; exact absurd hc (by simp)
      · rintro ⟨s, t2, hst⟩
        simp only [List.append_eq_nil] at hst
        obtain ⟨⟨-, h2⟩, -⟩ := hst
        rw [h2] at h
        exact (h rfl).elim
  | cons c t ih =>
    rw [containsSub]
    by_cases h : needle.isPrefixOf (c :: t) = true
    · rw [if_pos h]
      exact ⟨fun _ => (List.isPrefixOf_iff_prefix.mp h).isInfix, fun _ => rfl⟩
    · rw [if_neg h, ih, List.infix_cons_iff]
      constructor
      · exact Or.inr
      · rintro (hp | hi)
        · exact absurd (List.isPrefixOf_iff_prefix.mpr hp) h
        · exact hi

/-- `parse_sql_server_ddl` assembles the per-fragment results with
`filterMap`. -/
theorem parse_ddl_eq_filterMap (content : String) :
    parse_sql_server_ddl content =
      (tableFragments content.data).filterMap parse_single_table :=
  foldl_append_eq_filterMap parse_single_table (tableFragments content.data) []

/-- `parse_columns` assembles the per-line results with `filterMap`. -/
theorem parse_columns_eq_filterMap (raw : List Char) :
    parse_columns raw = (smart_split raw).filterMap processLine :=
  foldl_append_eq_filterMap processLine (smart_split raw) []

/-- A text containing `NOT NULL` contains `NULL`. -/
theorem null_infix_of_notNull {u : List Char} (h : "NOT NULL".data <:+: u) :
    "NULL".data <:+: u := by
  obtain ⟨l, r, hlr⟩ := h
  refine ⟨l ++ "NOT ".data, r, ?_⟩
  have hsplit : "NOT ".data ++ "NULL".data = "NOT NULL".data := by decide
  rw [← hlr, ← hsplit]
  simp [List.append_assoc]

/-! ## Claim theorems -/

/-- C10: with the params argument absent, `convert_data_type` falls back to the
static table even for the parameterized special cases: `decimal` and `numeric`
map to the bare `DECIMAL`, and `float` maps to `DOUBLE`. -/
theorem c10_absent_params_fallback :
    convert_data_type "decimal" none = "DECIMAL" ∧
    convert_data_type "numeric" none = "DECIMAL" ∧
    convert_data_type "float" none = "DOUBLE" := by decide

/-- C1, counterexample: on the end-to-end input the parsed table's name is not
`Orders` — the greedy name capture keeps the space between the table name and
the opening parenthesis, producing `Orders ` (trailing space). -/
theorem c1_counterexample :
    (parse_sql_server_ddl c1input).map TableDefinition.name ≠ ["Orders"] := by decide

/-- C1, amended: `parse_sql_server_ddl` on the end-to-end input yields exactly
one table with schema `dbo`, name `Orders ` (with the trailing space captured
by the greedy name group), and exactly the two claimed columns; rendering it
with schema qualification yields a block containing
`CREATE TABLE IF NOT EXISTS dbo.Orders`, `Id INT NOT NULL` and
`Amount DECIMAL(10,2)`, and containing no text of the constraint clause. -/
theorem c1_amended :
    parse_sql_server_ddl c1input = [c1table] ∧
    containsSub (generate_databricks_ddl c1table true).data
      "CREATE TABLE IF NOT EXISTS dbo.Orders".data = true ∧
    containsSub (generate_databricks_ddl c1table true).data "Id INT NOT NULL".data = true ∧
    containsSub (generate_databricks_ddl c1table true).data "Amount DECIMAL(10,2)".data = true ∧
    containsSub (generate_databricks_ddl c1table true).data "CONSTRAINT".data = false ∧
    containsSub (generate_databricks_ddl c1table true).data "PK_Orders".data = false ∧
    containsSub (generate_databricks_ddl c1table true).data "PRIMARY".data = false := by decide

/-- C3: the parameterized rules of `convert_data_type`: `decimal`/`numeric`
with a (nonempty, hence truthy) params string render it verbatim; `money` maps
to `DECIMAL(19,4)`; `float` with params parsing as an integer `n` yields
`FLOAT` for `n < 25` and `DOUBLE` otherwise, and `DOUBLE` when params does not
parse; `nvarchar` maps to `STRING` for every params value. -/
theorem c3_convert_data_type_rules :
    (∀ p : String, p ≠ "" →
        convert_data_type "decimal" (some p) = "DECIMAL(" ++ p ++ ")" ∧
        convert_data_type "numeric" (some p) = "DECIMAL(" ++ p ++ ")") ∧
    convert_data_type "money" none = "DECIMAL(19,4)" ∧
    (∀ (p : String) (n : Int), pyInt p = some n →
        convert_data_type "float" (some p) = if n < 25 then "FLOAT" else "DOUBLE") ∧
    (∀ p : String, pyInt p = none → convert_data_type "float" (some p) = "DOUBLE") ∧
    (∀ p : Option String, convert_data_type "nvarchar" p = "STRING") := by
  refine ⟨?_, by decide, ?_, ?_, ?_⟩
  · intro p hp
    have ht : truthyParams (some p) = true := by
      simp [truthyParams, beq_eq_false_iff_ne, hp]
    constructor
    · simp only [convert_data_type]
      rw [if_pos ⟨Or.inl (by decide), ht⟩]
      rfl
    · simp only [convert_data_type]
      rw [if_pos ⟨Or.inr (by decide), ht⟩]
      rfl
  · intro p n hn
    have hp : p ≠ "" := by
      intro he
      subst he
      have h0 : pyInt "" = none := by decide
      rw [h0] at hn
      simp at hn
    have ht : truthyParams (some p) = true := by
      simp [truthyParams, beq_eq_false_iff_ne, hp]
    simp only [convert_data_type]
    have hc1 : ¬((String.mk (lowerL "float".data) = "decimal" ∨
        String.mk (lowerL "float".data) = "numeric") ∧ truthyParams (some p) = true) := by
      rintro ⟨h, -⟩
      rcases h with h | h <;> exact absurd h (by decide)
    have hc2 : ¬(String.mk (lowerL "float".data) = "char" ∨
        String.mk (lowerL "float".data) = "varchar" ∨
        String.mk (lowerL "float".data) = "nchar" ∨
        String.mk (lowerL "float".data) = "nvarchar") := by decide
    rw [if_neg hc1, if_neg hc2, if_pos ⟨by decide, ht⟩, Option.getD_some, hn]
  · intro p hn
    by_cases hp : p = ""
    · subst hp; decide
    · have ht : truthyParams (some p) = true := by
        simp [truthyParams, beq_eq_false_iff_ne, hp]
      simp only [convert_data_type]
      have hc1 : ¬((String.mk (lowerL "float".data) = "decimal" ∨
          String.mk (lowerL "float".data) = "numeric") ∧ truthyParams (some p) = true) := by
        rintro ⟨h, -⟩
        rcases h with h | h <;> exact absurd h (by decide)
      have hc2 : ¬(String.mk (lowerL "float".data) = "char" ∨
          String.mk (lowerL "float".data) = "varchar" ∨
          String.mk (lowerL "float".data) = "nchar" ∨
          String.mk (lowerL "float".data) = "nvarchar") := by decide
      rw [if_neg hc1, if_neg hc2, if_pos ⟨by decide, ht⟩, Option.getD_some, hn]
  · intro p
    simp only [convert_data_type]
    have hc1 : ¬((String.mk (lowerL "nvarchar".data) = "decimal" ∨
        String.mk (lowerL "nvarchar".data) = "numeric") ∧ truthyParams p = true) := by
      rintro ⟨h, -⟩
      rcases h with h | h <;> exact absurd h (by decide)
    rw [if_neg hc1, if_pos (Or.inr (Or.inr (Or.inr (by decide))))]

/-- Witness for C3 at concrete inputs. -/
theorem c3_witness :
    convert_data_type "decimal" (some "10,2") = "DECIMAL(10,2)" ∧
    convert_data_type "float" (some "10") = "FLOAT" ∧
    convert_data_type "float" (some "30") = "DOUBLE" ∧
    convert_data_type "float" (some "x") = "DOUBLE" ∧
    convert_data_type "nvarchar" (some "50") = "STRING" := by
  refine ⟨(c3_convert_data_type_rules.1 "10,2" (by decide)).1, ?_, ?_,
    c3_convert_data_type_rules.2.2.2.1 "x" (by decide),
    c3_convert_data_type_rules.2.2.2.2 (some "50")⟩
  · have h := c3_convert_data_type_rules.2.2.1 "10" 10 (by decide)
    rw [h]; decide
  · have h := c3_convert_data_type_rules.2.2.1 "30" 30 (by decide)
    rw [h]; decide

/-- C7: the parse pipeline is a total function assembling its result by
skipping failures: the document parse equals `filterMap` of the single-table
parse over the fragments (unparseable tables are skipped), the column parse
equals `filterMap` of the per-fragment parse over the smart split (unparseable
column fragments are dropped), and an unrecognized base type falls back to the
default mapping, so every input produces an ordered, possibly empty, list of
tables. -/
theorem c7_parse_document_total :
    (∀ content : String,
        parse_sql_server_ddl content =
          (tableFragments content.data).filterMap parse_single_table) ∧
    (∀ raw : List Char,
        parse_columns raw = (smart_split raw).filterMap processLine) ∧
    (∀ (t : String) (p : Option String),
        String.mk (lowerL t.data) ∉
          ["decimal", "numeric", "char", "varchar", "nchar", "nvarchar", "float"] →
        type_mapping.lookup (String.mk (lowerL t.data)) = none →
        convert_data_type t p = "STRING") := by
  refine ⟨parse_ddl_eq_filterMap, parse_columns_eq_filterMap, ?_⟩
  · intro t p hmem hlook
    simp only [convert_data_type]
    rw [if_neg, if_neg, if_neg, hlook]
    · rfl
    · rintro ⟨h, -⟩
      exact hmem (by simp [h])
    · rintro (h | h | h | h) <;> exact hmem (by simp [h])
    · rintro ⟨h, -⟩
      rcases h with h | h <;> exact hmem (by simp [h])

/-- Witness for C7 at concrete inputs. -/
theorem c7_witness :
    parse_sql_server_ddl "no tables here" =
      (tableFragments "no tables here".data).filterMap parse_single_table ∧
    convert_data_type "foobar" none = "STRING" := by
  refine ⟨c7_parse_document_total.1 "no tables here",
    c7_parse_document_total.2.2 "foobar" none ?_ ?_⟩ <;> decide

/-- C8: a fragment whose name and column body are located but whose body
yields zero parsed columns is still a `some` result of the single-table parse
and is therefore included in the document parse (never dropped); a
zero-column table renders as a degenerate empty-body block.  The last conjunct
exhibits an end-to-end zero-column instance. -/
theorem c8_zero_column_table_emitted :
    (∀ (content : String) (frag : List Char) (t : TableDefinition),
        frag ∈ tableFragments content.data →
        parse_single_table frag = some t →
        t ∈ parse_sql_server_ddl content) ∧
    (∀ sch nm : String, sch ≠ "" →
        generate_databricks_ddl ⟨some sch, nm, []⟩ true =
          "CREATE TABLE IF NOT EXISTS " ++ sch ++ "." ++ nm ++ " (\n\n)\nUSING DELTA;") ∧
    parse_sql_server_ddl "CREATE TABLE dbo.Empty (PRIMARY KEY Id)" =
      [⟨some "dbo", "Empty ", []⟩] := by
  refine ⟨?_, ?_, by decide⟩
  · intro content frag t hfrag hparse
    rw [parse_ddl_eq_filterMap content]
    exact List.mem_filterMap.mpr ⟨frag, hfrag, hparse⟩
  · intro sch nm hsch
    have ht : schemaTruthy (some sch) = true := by
      simp [schemaTruthy, beq_eq_false_iff_ne, hsch]
    simp only [generate_databricks_ddl, ht, Bool.and_true, if_true, columnSection,
      List.map_nil, Option.getD_some]
    apply String.ext
    simp [String.data_append, joinCommaNl]

/-- Witness for C8: the zero-column table of the concrete input is a member of
the document parse. -/
theorem c8_witness :
    (⟨some "dbo", "Empty ", []⟩ : TableDefinition) ∈
      parse_sql_server_ddl "CREATE TABLE dbo.Empty (PRIMARY KEY Id)" ∧
    generate_databricks_ddl ⟨some "dbo", "Empty ", []⟩ true =
      "CREATE TABLE IF NOT EXISTS " ++ "dbo" ++ "." ++ "Empty " ++ " (\n\n)\nUSING DELTA;" :=
  ⟨c8_zero_column_table_emitted.1 "CREATE TABLE dbo.Empty (PRIMARY KEY Id)"
      "dbo.Empty (PRIMARY KEY Id)".data ⟨some "dbo", "Empty ", []⟩ (by decide) (by decide),
   c8_zero_column_table_emitted.2.1 "dbo" "Empty " (by decide)⟩

/-! ## Lemmas about stripping and leading keywords -/

/-- A list fixed by `dropWhile p` that starts with `c` has `p c = false`. -/
theorem head_false_of_dropWhile_fix {p : Char → Bool} {c : Char} {t : List Char}
    (h : (c :: t).dropWhile p = c :: t) : p c = false := by
  by_contra hc
  have hc' : p c = true := by
    cases hpc : p c with
    | false => exact absurd hpc hc
    | true => rfl
  rw [List.dropWhile_cons, if_pos hc'] at h
  have hlen := (List.dropWhile_suffix (l := t) p).length_le
  rw [h] at hlen
  simp at hlen

/-- Right-stripping preserves the fixed points of left `dropWhile`. -/
theorem dropWhile_rstrip (p : Char → Bool) (l : List Char) (h : l.dropWhile p = l) :
    ((l.reverse.dropWhile p).reverse).dropWhile p = (l.reverse.dropWhile p).reverse := by
  cases hrs : (l.reverse.dropWhile p).reverse with
  | nil => rfl
  | cons c t =>
    have hsuf : l.reverse.dropWhile p <:+ l.reverse := List.dropWhile_suffix p
    have hpre : (l.reverse.dropWhile p).reverse <+: l := by
      rw [← List.reverse_suffix]
      simpa using hsuf
    rw [hrs] at hpre
    obtain ⟨r, hr⟩ := hpre
    have hfix : (c :: (t ++ r)).dropWhile p = c :: (t ++ r) := by
      have : l = c :: (t ++ r) := by simpa using hr.symm
      rw [← this]
      exact h
    have hc := head_false_of_dropWhile_fix hfix
    rw [List.dropWhile_cons, if_neg (by simp [hc])]

/-- A stripped text has no leading whitespace. -/
theorem dropWhile_pyStrip (l : List Char) :
    (pyStrip l).dropWhile pySpace = pyStrip l := by
  unfold pyStrip
  exact dropWhile_rstrip pySpace (l.dropWhile pySpace)
    (List.dropWhile_idempotent pySpace l)

/-- C5: for every parsed column, `nullable` is `false` exactly when the
captured modifier text contains the `NOT NULL` marker (case-insensitively,
via upper-casing as the source does), and a modifier text containing no
`NULL` marker at all yields `nullable = true`. -/
theorem c5_nullable_iff_not_null_marker :
    ∀ (line : List Char) (col : ColumnDefinition),
      processLine line = some col →
      ∃ n t p m, columnMatch (pyStrip line) = some (n, t, p, m) ∧
        (col.nullable = false ↔ "NOT NULL".data <:+: upperL m) ∧
        (¬ "NULL".data <:+: upperL m → col.nullable = true) := by
  intro line col h
  simp only [processLine] at h
  split_ifs at h
  cases hm : columnMatch (pyStrip line) with
  | none => rw [hm] at h; exact absurd h (by simp)
  | some quad =>
    obtain ⟨n, t, p, m⟩ := quad
    rw [hm] at h
    have hcol : col = buildColumn n t p m := (Option.some.inj h).symm
    refine ⟨n, t, p, m, rfl, ?_, ?_⟩
    · rw [hcol]
      show (!(containsSub (upperL m) ("NOT NULL".data))) = false ↔ _
      rw [Bool.not_eq_false', containsSub_infix_iff]
    · intro hno
      rw [hcol]
      show (!(containsSub (upperL m) ("NOT NULL".data))) = true
      have hf : containsSub (upperL m) ("NOT NULL".data) = false := by
        cases hc : containsSub (upperL m) ("NOT NULL".data) with
        | false => rfl
        | true =>
          exact absurd (null_infix_of_notNull ((containsSub_infix_iff _ _).mp hc)) hno
      rw [hf]
      rfl

/-- Witness for C5 at a concrete line. -/
theorem c5_witness :
    ∃ n t p m, columnMatch (pyStrip "[Id] int NOT NULL".data) = some (n, t, p, m) ∧
      ((⟨"Id", "int", none, false⟩ : ColumnDefinition).nullable = false ↔
        "NOT NULL".data <:+: upperL m) ∧
      (¬ "NULL".data <:+: upperL m →
        (⟨"Id", "int", none, false⟩ : ColumnDefinition).nullable = true) :=
  c5_nullable_iff_not_null_marker "[Id] int NOT NULL".data ⟨"Id", "int", none, false⟩
    (by decide)

/-- C9: the column parser's constraint filter matches the keywords as bare
case-insensitive prefixes of the (stripped) fragment, with no word boundary:
every fragment beginning with `CONSTRAINT`, `PRIMARY`, `UNIQUE`, `FOREIGN` or
`CHECK` yields no column, including the genuine column `CheckStatus int NULL`,
whereas the bracket-delimited `[CheckStatus] int NULL` is kept. -/
theorem c9_constraint_keyword_bare_prefix :
    (∀ (line : List Char) (kw : String),
        kw ∈ ["CONSTRAINT", "PRIMARY", "UNIQUE", "FOREIGN", "CHECK"] →
        kw.data.isPrefixOf (upperL (pyStrip line)) = true →
        processLine line = none) ∧
    parse_columns "CheckStatus int NULL".data = [] ∧
    parse_columns "[CheckStatus] int NULL".data = [⟨"CheckStatus", "int", none, true⟩] := by
  refine ⟨?_, by decide, by decide⟩
  intro line kw hkw hpre
  simp only [processLine]
  by_cases hl : pyStrip line = []
  · rw [if_pos hl]
  · rw [if_neg hl]
    have hcs : isConstraintStart (pyStrip line) = true := by
      unfold isConstraintStart
      rw [List.any_eq_true]
      refine ⟨kw, ?_, ?_⟩
      · fin_cases hkw <;> decide
      · rw [dropWhile_pyStrip]
        exact hpre
    rw [if_pos hcs]

/-- Witness for C9 at a concrete fragment. -/
theorem c9_witness : processLine "PRIMARY KEY (Id)".data = none :=
  c9_constraint_keyword_bare_prefix.1 "PRIMARY KEY (Id)".data "PRIMARY"
    (by decide) (by decide)

/-! ## Unbalanced bodies (C6) -/

/-- The opening parenthesis currently at depth `d ≥ 1` is never closed: the
depth never returns to 0 while scanning the rest of the text. -/
def neverCloses (d : Int) : List Char → Bool
  | [] => true
  | c :: r =>
    if c = '(' then neverCloses (d + 1) r
    else if c = ')' then decide (2 ≤ d) && neverCloses (d - 1) r
    else neverCloses d r

/-- If the depth never returns to 0, the span search never finds an end. -/
theorem findSpanGo_eq_none_of_neverCloses :
    ∀ (v : List Char) (d : Int) (start : Option Nat) (i : Nat),
      neverCloses d v = true → findSpanGo d start i v = none := by
  intro v
  induction v with
  | nil => intro d start i _; rfl
  | cons c r ih =>
    intro d start i h
    rw [neverCloses] at h
    rw [findSpanGo.eq_def]
    dsimp only
    by_cases hc : c = '('
    · rw [if_pos hc] at h ⊢
      cases start with
      | none =>
        by_cases hd : d = 0
        · rw [if_pos hd]; exact ih _ _ _ h
        · rw [if_neg hd]; exact ih _ _ _ h
      | some st => exact ih _ _ _ h
    · by_cases hc2 : c = ')'
      · rw [if_neg hc, if_pos hc2] at h ⊢
        rw [Bool.and_eq_true, decide_eq_true_iff] at h
        obtain ⟨hd2, h⟩ := h
        cases start with
        | none => exact ih _ _ _ h
        | some st =>
          dsimp only
          rw [if_neg (show ¬(d - 1 = 0) by omega)]
          exact ih _ _ _ h
      · rw [if_neg hc, if_neg hc2] at h ⊢
        exact ih _ _ _ h

/-- Scanning a paren-free prefix changes neither the depth nor the pending
start. -/
theorem findSpanGo_append_nonParen :
    ∀ (u : List Char) (d : Int) (i : Nat) (rest : List Char),
      (∀ c ∈ u, c ≠ '(' ∧ c ≠ ')') →
      findSpanGo d none i (u ++ rest) = findSpanGo d none (i + u.length) rest := by
  intro u
  induction u with
  | nil => intro d i rest _; simp
  | cons c u ih =>
    intro d i rest hu
    obtain ⟨hc1, hc2⟩ := hu c (by simp)
    rw [List.cons_append, findSpanGo, if_neg hc1, if_neg hc2,
      ih d (i + 1) rest (fun x hx => hu x (by simp [hx]))]
    congr 1
    simp
    omega

/-- C6: a fragment whose column body opens a parenthesis that is never closed
(and whose text before that parenthesis contains no parentheses) is skipped by
the single-table parse: `parse_single_table` returns `none` instead of a
table, because the balanced-span search reports not-found. -/
theorem c6_unbalanced_body_skipped (u v : List Char)
    (hu : ∀ c ∈ u, c ≠ '(' ∧ c ≠ ')') (hv : neverCloses 1 v = true) :
    parse_single_table (u ++ '(' :: v) = none := by
  have hspan : findBalancedSpan (u ++ '(' :: v) = none := by
    unfold findBalancedSpan
    rw [findSpanGo_append_nonParen u 0 0 ('(' :: v) hu]
    show findSpanGo 1 (some (0 + u.length + 1)) (0 + u.length + 1) v = none
    exact findSpanGo_eq_none_of_neverCloses v 1 _ _ hv
  simp only [parse_single_table, hspan]
  cases tableNameQualified (u ++ '(' :: v) with
  | none =>
    cases tableNameBare (u ++ '(' :: v) with
    | none => rfl
    | some nm => rfl
  | some pair => rfl

/-- Witness for C6 at a concrete unbalanced fragment. -/
theorem c6_witness :
    parse_single_table ("dbo.Orders ".data ++ '(' :: " [Id] int NOT NULL".data) = none :=
  c6_unbalanced_body_skipped "dbo.Orders ".data " [Id] int NOT NULL".data
    (by decide) (by decide)

/-! ## Top-level split never breaks a parenthesized span (C2) -/

/-- Parenthesis balance of a text: occurrences of `(` minus occurrences of
`)`; the depth counter of `_smart_split` after scanning the text. -/
def parenBal : List Char → Int
  | [] => 0
  | c :: r => (if c = '(' then 1 else if c = ')' then -1 else 0) + parenBal r

/-- Step of `smartSplitGo` on `(`. -/
theorem smartSplitGo_cons_open {c : Char} (hc : c = '(') (d : Int) (cur : List Char)
    (parts : List (List Char)) (s : List Char) :
    smartSplitGo d cur parts (c :: s) = smartSplitGo (d + 1) (cur ++ [c]) parts s := by
  subst hc; rfl

/-- Step of `smartSplitGo` on `)`. -/
theorem smartSplitGo_cons_close {c : Char} (hc : c = ')') (d : Int) (cur : List Char)
    (parts : List (List Char)) (s : List Char) :
    smartSplitGo d cur parts (c :: s) = smartSplitGo (d - 1) (cur ++ [c]) parts s := by
  subst hc; rfl

/-- Step of `smartSplitGo` on a splitting comma (depth 0). -/
theorem smartSplitGo_cons_comma {c : Char} {d : Int} (hc : c = ',') (hd : d = 0)
    (cur : List Char) (parts : List (List Char)) (s : List Char) :
    smartSplitGo d cur parts (c :: s) =
      smartSplitGo d [] (parts ++ [pyStrip cur]) s := by
  subst hc; subst hd; rfl

/-- Step of `smartSplitGo` on any other character. -/
theorem smartSplitGo_cons_other {c : Char} {d : Int} (hc1 : c ≠ '(') (hc2 : c ≠ ')')
    (hc3 : ¬(c = ',' ∧ d = 0)) (cur : List Char) (parts : List (List Char))
    (s : List Char) :
    smartSplitGo d cur parts (c :: s) = smartSplitGo d (cur ++ [c]) parts s := by
  rw [smartSplitGo.eq_def]
  dsimp only
  rw [if_neg hc1, if_neg hc2, if_neg hc3]

/-- Terminal step of `smartSplitGo`. -/
theorem smartSplitGo_nil (d : Int) (cur : List Char) (parts : List (List Char)) :
    smartSplitGo d cur parts [] =
      if cur = [] then parts else parts ++ [pyStrip cur] := rfl

/-- Fragments already emitted pass through `smartSplitGo` untouched. -/
theorem smartSplitGo_parts (s : List Char) :
    ∀ (d : Int) (cur : List Char) (parts : List (List Char)),
      smartSplitGo d cur parts s = parts ++ smartSplitGo d cur [] s := by
  induction s with
  | nil =>
    intro d cur parts
    rw [smartSplitGo_nil, smartSplitGo_nil]
    by_cases hcur : cur = []
    · rw [if_pos hcur, if_pos hcur]; simp
    · rw [if_neg hcur, if_neg hcur]; simp
  | cons c s ih =>
    intro d cur parts
    by_cases hc1 : c = '('
    · rw [smartSplitGo_cons_open hc1 d cur parts s, smartSplitGo_cons_open hc1 d cur [] s]
      exact ih (d + 1) (cur ++ [c]) parts
    · by_cases hc2 : c = ')'
      · rw [smartSplitGo_cons_close hc2 d cur parts s,
          smartSplitGo_cons_close hc2 d cur [] s]
        exact ih (d - 1) (cur ++ [c]) parts
      · by_cases hc3 : c = ',' ∧ d = 0
        · rw [smartSplitGo_cons_comma hc3.1 hc3.2 cur parts s,
            smartSplitGo_cons_comma hc3.1 hc3.2 cur [] s,
            ih d [] (parts ++ [pyStrip cur]), ih d [] ([] ++ [pyStrip cur])]
          simp
        · rw [smartSplitGo_cons_other hc1 hc2 hc3 cur parts s,
            smartSplitGo_cons_other hc1 hc2 hc3 cur [] s]
          exact ih d (cur ++ [c]) parts

/-- After scanning any prefix the split continues in some state whose depth is
the initial depth plus the prefix's parenthesis balance. -/
theorem smartSplitGo_append_state (rest : List Char) :
    ∀ (pre : List Char) (d : Int) (cur : List Char) (parts : List (List Char)),
      ∃ cur2 parts2,
        smartSplitGo d cur parts (pre ++ rest) =
          smartSplitGo (d + parenBal pre) cur2 parts2 rest := by
  intro pre
  induction pre with
  | nil =>
    intro d cur parts
    refine ⟨cur, parts, ?_⟩
    have h0 : parenBal [] = 0 := rfl
    rw [h0]
    simp
  | cons c pre ih =>
    intro d cur parts
    by_cases hc1 : c = '('
    · subst hc1
      obtain ⟨cur2, parts2, hE⟩ := ih (d + 1) (cur ++ ['(']) parts
      refine ⟨cur2, parts2, ?_⟩
      rw [List.cons_append, smartSplitGo_cons_open rfl d cur parts, hE]
      have hb : parenBal ('(' :: pre) = 1 + parenBal pre := rfl
      rw [hb]
      congr 1
      omega
    · by_cases hc2 : c = ')'
      · subst hc2
        obtain ⟨cur2, parts2, hE⟩ := ih (d - 1) (cur ++ [')']) parts
        refine ⟨cur2, parts2, ?_⟩
        rw [List.cons_append, smartSplitGo_cons_close rfl d cur parts, hE]
        have hb : parenBal (')' :: pre) = -1 + parenBal pre := rfl
        rw [hb]
        congr 1
        omega
      · have hb : parenBal (c :: pre) = parenBal pre := by
          rw [parenBal.eq_def]
          dsimp only
          rw [if_neg hc1, if_neg hc2]
          omega
        by_cases hc3 : c = ',' ∧ d = 0
        · obtain ⟨cur2, parts2, hE⟩ := ih d [] (parts ++ [pyStrip cur])
          refine ⟨cur2, parts2, ?_⟩
          rw [List.cons_append, smartSplitGo_cons_comma hc3.1 hc3.2 cur parts, hE, hb]
        · obtain ⟨cur2, parts2, hE⟩ := ih d (cur ++ [c]) parts
          refine ⟨cur2, parts2, ?_⟩
          rw [List.cons_append, smartSplitGo_cons_other hc1 hc2 hc3 cur parts, hE, hb]

/-- While the depth is nonzero, a paren-free run is consumed into the current
fragment without splitting (commas included). -/
theorem smartSplitGo_consume_nonParen :
    ∀ (mid : List Char) (d : Int) (cur : List Char) (parts : List (List Char))
      (rest : List Char),
      (∀ c ∈ mid, c ≠ '(' ∧ c ≠ ')') → d ≠ 0 →
      smartSplitGo d cur parts (mid ++ rest) = smartSplitGo d (cur ++ mid) parts rest := by
  intro mid
  induction mid with
  | nil => intro d cur parts rest _ _; simp
  | cons c mid ih =>
    intro d cur parts rest hmid hd
    obtain ⟨hc1, hc2⟩ := hmid c (by simp)
    rw [List.cons_append,
      smartSplitGo_cons_other hc1 hc2 (fun hx => hd hx.2) cur parts,
      ih d (cur ++ [c]) parts rest (fun x hx => hmid x (by simp [hx])) hd]
    simp

/-- The pending fragment always surfaces as the next emitted fragment,
possibly extended by further characters. -/
theorem smartSplitGo_head_fragment (s : List Char) :
    ∀ (d : Int) (cur : List Char), cur ≠ [] →
      ∃ r rest2, smartSplitGo d cur [] s = pyStrip (cur ++ r) :: rest2 := by
  induction s with
  | nil =>
    intro d cur hcur
    refine ⟨[], [], ?_⟩
    rw [smartSplitGo_nil, if_neg hcur]
    simp
  | cons c s ih =>
    intro d cur hcur
    by_cases hc1 : c = '('
    · obtain ⟨r, rest2, hC⟩ := ih (d + 1) (cur ++ [c]) (by simp)
      refine ⟨c :: r, rest2, ?_⟩
      rw [smartSplitGo_cons_open hc1 d cur [] s, hC]
      simp
    · by_cases hc2 : c = ')'
      · obtain ⟨r, rest2, hC⟩ := ih (d - 1) (cur ++ [c]) (by simp)
        refine ⟨c :: r, rest2, ?_⟩
        rw [smartSplitGo_cons_close hc2 d cur [] s, hC]
        simp
      · by_cases hc3 : c = ',' ∧ d = 0
        · refine ⟨[], smartSplitGo d [] [] s, ?_⟩
          rw [smartSplitGo_cons_comma hc3.1 hc3.2 cur [] s,
            smartSplitGo_parts s d [] ([] ++ [pyStrip cur])]
          simp
        · obtain ⟨r, rest2, hC⟩ := ih d (cur ++ [c]) (by simp)
          refine ⟨c :: r, rest2, ?_⟩
          rw [smartSplitGo_cons_other hc1 hc2 hc3 cur [] s, hC]
          simp

/-- Dropping leading characters stops at a non-matching head: the tail
starting at that head survives as a block. -/
theorem dropWhile_append_cons {p : Char → Bool} (l : List Char) (c : Char)
    (m : List Char) (hc : p c = false) :
    ∃ X, List.dropWhile p (l ++ c :: m) = X ++ c :: m := by
  rw [List.dropWhile_append]
  by_cases h : (List.dropWhile p l).isEmpty = true
  · rw [if_pos h, List.dropWhile_cons, if_neg (by simp [hc])]
    exact ⟨[], rfl⟩
  · rw [if_neg h]
    exact ⟨List.dropWhile p l, rfl⟩

/-- Stripping whitespace from both ends preserves a parenthesized span inside
the text, since the span starts with `(` and ends with `)`. -/
theorem infix_pyStrip_parens (l r mid : List Char) :
    ('(' :: (mid ++ [')'])) <:+: pyStrip (l ++ ('(' :: (mid ++ [')'])) ++ r) := by
  obtain ⟨X, hX⟩ := dropWhile_append_cons (p := pySpace) l '(' (mid ++ [')'] ++ r)
    (by decide)
  have h1 : List.dropWhile pySpace (l ++ ('(' :: (mid ++ [')'])) ++ r) =
      X ++ '(' :: (mid ++ [')'] ++ r) := by
    rw [← hX]
    congr 1
    simp
  obtain ⟨Y, hY⟩ := dropWhile_append_cons (p := pySpace) r.reverse ')'
    (mid.reverse ++ '(' :: X.reverse) (by decide)
  have h2 : (X ++ '(' :: (mid ++ [')'] ++ r)).reverse =
      r.reverse ++ ')' :: (mid.reverse ++ '(' :: X.reverse) := by
    simp
  refine ⟨X, Y.reverse, ?_⟩
  unfold pyStrip
  rw [h1, h2, hY]
  simp

/-- C2: `_smart_split` never splits inside a parenthesized span.  If the text
before the span's opening parenthesis has nonnegative balance (so the
characters between the parentheses sit at positive nesting depth — the
split-point rule of the code is that the separator splits only at depth
exactly 0), then the whole span, internal commas included, ends up inside a
single returned fragment. -/
theorem c2_smart_split_preserves_span (pre mid post : List Char)
    (hmid : ∀ c ∈ mid, c ≠ '(' ∧ c ≠ ')') (hpre : 0 ≤ parenBal pre) :
    ∃ frag ∈ smart_split (pre ++ '(' :: (mid ++ ')' :: post)),
      ('(' :: (mid ++ [')'])) <:+: frag := by
  unfold smart_split
  obtain ⟨cur2, parts2, hE⟩ :=
    smartSplitGo_append_state ('(' :: (mid ++ ')' :: post)) pre 0 [] []
  rw [hE,
    smartSplitGo_cons_open rfl (0 + parenBal pre) cur2 parts2 (mid ++ ')' :: post),
    smartSplitGo_consume_nonParen mid (0 + parenBal pre + 1) (cur2 ++ ['(']) parts2
      (')' :: post) hmid (by omega),
    smartSplitGo_cons_close rfl (0 + parenBal pre + 1) ((cur2 ++ ['(']) ++ mid) parts2
      post,
    smartSplitGo_parts post _ _ parts2]
  obtain ⟨r, rest2, hC⟩ := smartSplitGo_head_fragment post (0 + parenBal pre + 1 - 1)
    (((cur2 ++ ['(']) ++ mid) ++ [')']) (by simp)
  rw [hC]
  refine ⟨pyStrip ((((cur2 ++ ['(']) ++ mid) ++ [')']) ++ r), ?_, ?_⟩
  · simp
  · have hassoc : (((cur2 ++ ['(']) ++ mid) ++ [')']) ++ r =
        cur2 ++ ('(' :: (mid ++ [')'])) ++ r := by simp
    rw [hassoc]
    exact infix_pyStrip_parens cur2 r mid

/-- Witness for C2 at a concrete input containing the span `(b,c)`. -/
theorem c2_witness :
    ∃ frag ∈ smart_split ("a".data ++ '(' :: ("b,c".data ++ ')' :: " d,e".data)),
      ('(' :: ("b,c".data ++ [')'])) <:+: frag :=
  c2_smart_split_preserves_span "a".data "b,c".data " d,e".data (by decide) (by decide)

/-! ## Round-tripping the rendered column section (C4) -/

/-- The counterexample table for C4: one NOT NULL column. -/
def c4table : TableDefinition := ⟨some "dbo", "T", [⟨"Id", "int", none, false⟩]⟩

/-- Characters of an undelimited identifier. -/
def nameChar (c : Char) : Bool := c.isAlpha || c.isDigit || c = '_'

/-- A bare identifier: nonempty, made of letters/digits/underscores, and not
starting (case-insensitively) with one of the constraint keywords. -/
def bareIdent (n : List Char) : Bool :=
  !n.isEmpty && n.all nameChar && !(isConstraintStart n)

/-- Params made only of digits and commas (the shape of precision/scale
parameter lists), or absent. -/
def digitCommaParams : Option String → Bool
  | none => true
  | some q => !q.data.isEmpty && q.data.all (fun c => c.isDigit || c = ',')

/-- Facts about identifier characters. -/
theorem nameChar_facts (c : Char) (h : nameChar c = true) :
    pySpace c = false ∧ nonBracket c = true ∧ c ≠ '(' ∧ c ≠ ')' ∧ c ≠ ',' ∧
      c ≠ '=' ∧ c ≠ ']' := by
  have hs : pySpace c = false := by
    cases hp : pySpace c
    · rfl
    · exfalso
      simp only [pySpace, Bool.or_eq_true, decide_eq_true_eq] at hp
      rcases hp with (((((rfl | rfl) | rfl) | rfl) | rfl) | rfl) <;> exact absurd h (by decide)
  refine ⟨hs, ?_, ?_, ?_, ?_, ?_, ?_⟩ <;> try (rintro rfl; exact absurd h (by decide))
  have h1 : c ≠ '[' := by rintro rfl; exact absurd h (by decide)
  have h2 : c ≠ ']' := by rintro rfl; exact absurd h (by decide)
  simp [nonBracket, h1, h2]

/-- Facts about upper-case letters. -/
theorem upperAlpha_facts (c : Char) (h : ('A' ≤ c && c ≤ 'Z') = true) :
    identChar c = true ∧ pySpace c = false ∧ nonBracket c = true ∧ c ≠ '(' ∧
      c ≠ ')' ∧ c ≠ ',' ∧ c ≠ '=' ∧ c ≠ ']' ∧ c ≠ '[' := by
  have hs : pySpace c = false := by
    cases hp : pySpace c
    · rfl
    · exfalso
      simp only [pySpace, Bool.or_eq_true, decide_eq_true_eq] at hp
      rcases hp with (((((rfl | rfl) | rfl) | rfl) | rfl) | rfl) <;> exact absurd h (by decide)
  have hid : identChar c = true := by
    simp only [identChar, Bool.or_eq_true]
    left; right
    exact h
  refine ⟨hid, hs, ?_, ?_, ?_, ?_, ?_, ?_, ?_⟩ <;>
    try (rintro rfl; exact absurd h (by decide))
  have h1 : c ≠ '[' := by rintro rfl; exact absurd h (by decide)
  have h2 : c ≠ ']' := by rintro rfl; exact absurd h (by decide)
  simp [nonBracket, h1, h2]

/-- Facts about digit/comma characters. -/
theorem digitComma_facts (c : Char) (h : (c.isDigit || c = ',') = true) :
    pySpace c = false ∧ nonBracket c = true ∧ c ≠ '(' ∧ c ≠ ')' ∧ c ≠ '=' ∧
      c ≠ ']' ∧ (c != ')') = true := by
  have hs : pySpace c = false := by
    cases hp : pySpace c
    · rfl
    · exfalso
      simp only [pySpace, Bool.or_eq_true, decide_eq_true_eq] at hp
      rcases hp with (((((rfl | rfl) | rfl) | rfl) | rfl) | rfl) <;> exact absurd h (by decide)
  have h1 : c ≠ '[' := by rintro rfl; exact absurd h (by decide)
  have h2 : c ≠ ']' := by rintro rfl; exact absurd h (by decide)
  have h3 : c ≠ ')' := by rintro rfl; exact absurd h (by decide)
  refine ⟨hs, by simp [nonBracket, h1, h2], ?_, h3, ?_, h2, by simp [bne_iff_ne, h3]⟩ <;>
    (rintro rfl; exact absurd h (by decide))

/-- Step of `optCh` on a non-matching head. -/
theorem optCh_no {α : Type} {c x : Char} (h : x ≠ c) (k : List Char → Option α)
    (rest : List Char) : optCh c k (x :: rest) = k (x :: rest) := by
  rw [optCh.eq_def]
  dsimp only
  rw [if_neg h]

/-- `optCh` on the empty text. -/
theorem optCh_nil {α : Type} (c : Char) (k : List Char → Option α) :
    optCh c k [] = k [] := rfl

/-- `greedyPlus` fails on the empty text. -/
theorem greedyPlus_nil {α : Type} (p : Char → Bool) (k : List Char → List Char → Option α) :
    greedyPlus p k [] = none := rfl

/-- `greedyPlus` fails when the head does not match. -/
theorem greedyPlus_cons_false {α : Type} {p : Char → Bool} {c : Char}
    (h : p c = false) (k : List Char → List Char → Option α) (s : List Char) :
    greedyPlus p k (c :: s) = none := by
  rw [greedyPlus.eq_def]
  dsimp only
  rw [if_neg (by simp [h])]

/-- `greedyPlus` enters the greedy loop when the head matches. -/
theorem greedyPlus_cons_true {α : Type} {p : Char → Bool} {c : Char}
    (h : p c = true) (k : List Char → List Char → Option α) (s : List Char) :
    greedyPlus p k (c :: s) = greedyAux p k [c] s := by
  rw [greedyPlus.eq_def]
  dsimp only
  rw [if_pos h]

/-- `greedyAux` hands over on a non-matching head. -/
theorem greedyAux_cons_false {α : Type} {p : Char → Bool} {c : Char}
    (h : p c = false) (k : List Char → List Char → Option α) (acc s : List Char) :
    greedyAux p k acc (c :: s) = k acc (c :: s) := by
  rw [greedyAux.eq_def]
  dsimp only
  rw [if_neg (by simp [h])]

/-- Explicit enumeration of a greedy quantifier's candidate extents: the
extent `acc ++ ext` is tried first, then ever shorter extents down to `acc`,
each time handing the remaining characters to the continuation. -/
def backtrackTry {α : Type} (k : List Char → List Char → Option α)
    (acc : List Char) : List Char → List Char → Option α
  | [], rest => k acc rest
  | c :: ext, rest =>
    match backtrackTry k (acc ++ [c]) ext rest with
    | some r => some r
    | none => k acc (c :: (ext ++ rest))

/-- A greedy run over a block of matching characters followed by a
non-matching boundary is exactly the candidate enumeration. -/
theorem greedyAux_eq_backtrackTry {α : Type} (p : Char → Bool)
    (k : List Char → List Char → Option α) :
    ∀ (ext acc rest : List Char),
      (∀ c ∈ ext, p c = true) →
      (rest = [] ∨ ∃ c2 r2, rest = c2 :: r2 ∧ p c2 = false) →
      greedyAux p k acc (ext ++ rest) = backtrackTry k acc ext rest := by
  intro ext
  induction ext with
  | nil =>
    intro acc rest _ hstop
    rcases hstop with rfl | ⟨c2, r2, rfl, hc2⟩
    · rfl
    · rw [List.nil_append, greedyAux_cons_false hc2]
      rfl
  | cons c ext ih =>
    intro acc rest hext hstop
    have hc : p c = true := hext c (by simp)
    rw [List.cons_append, greedyAux.eq_def]
    dsimp only
    rw [if_pos hc, ih (acc ++ [c]) rest (fun x hx => hext x (by simp [hx])) hstop]
    rfl

/-- The first candidate of the enumeration is the full extent. -/
theorem backtrackTry_longest {α : Type} (k : List Char → List Char → Option α) :
    ∀ (ext acc rest : List Char) (v : α), k (acc ++ ext) rest = some v →
      backtrackTry k acc ext rest = some v := by
  intro ext
  induction ext with
  | nil =>
    intro acc rest v h
    rw [backtrackTry.eq_def]
    dsimp only
    rw [← List.append_nil acc]
    exact h
  | cons c ext ih =>
    intro acc rest v h
    have h2 : backtrackTry k (acc ++ [c]) ext rest = some v := by
      refine ih (acc ++ [c]) rest v ?_
      rw [List.append_assoc]
      exact h
    rw [backtrackTry.eq_def]
    dsimp only
    rw [h2]

/-- When every candidate extent fails, the enumeration fails. -/
theorem backtrackTry_all_fail {α : Type} (k : List Char → List Char → Option α) :
    ∀ (ext acc rest : List Char),
      (∀ a b, ext = a ++ b → k (acc ++ a) (b ++ rest) = none) →
      backtrackTry k acc ext rest = none := by
  intro ext
  induction ext with
  | nil =>
    intro acc rest h
    have := h [] [] rfl
    simpa using this
  | cons c ext ih =>
    intro acc rest h
    have hin : backtrackTry k (acc ++ [c]) ext rest = none := by
      refine ih (acc ++ [c]) rest ?_
      intro a b hab
      have hthis := h (c :: a) b (by rw [hab]; rfl)
      rw [List.append_assoc, List.singleton_append]
      exact hthis
    rw [backtrackTry.eq_def]
    dsimp only
    rw [hin]
    have := h [] (c :: ext) rfl
    simpa using this

/-- When every nonempty extension fails, the enumeration settles on the
shortest candidate. -/
theorem backtrackTry_skip {α : Type} (k : List Char → List Char → Option α) :
    ∀ (e2 acc rest : List Char),
      (∀ a b, e2 = a ++ b → a ≠ [] → k (acc ++ a) (b ++ rest) = none) →
      backtrackTry k acc e2 rest = k acc (e2 ++ rest) := by
  intro e2
  induction e2 with
  | nil => intro acc rest _; simp [backtrackTry]
  | cons c e2 ih =>
    intro acc rest h
    have hin : backtrackTry k (acc ++ [c]) e2 rest = none := by
      refine backtrackTry_all_fail k e2 (acc ++ [c]) rest ?_
      intro a b hab
      have hthis := h (c :: a) b (by rw [hab]; rfl) (by simp)
      rw [List.append_assoc, List.singleton_append]
      exact hthis
    rw [backtrackTry.eq_def]
    dsimp only
    rw [hin]
    rfl

/-- Splitting the enumeration at a point after which every longer candidate
fails. -/
theorem backtrackTry_split {α : Type} (k : List Char → List Char → Option α) :
    ∀ (e1 e2 acc rest : List Char),
      (∀ a b, e2 = a ++ b → a ≠ [] → k ((acc ++ e1) ++ a) (b ++ rest) = none) →
      backtrackTry k acc (e1 ++ e2) rest = backtrackTry k acc e1 (e2 ++ rest) := by
  intro e1
  induction e1 with
  | nil =>
    intro e2 acc rest h
    rw [List.nil_append]
    rw [backtrackTry_skip k e2 acc rest (by simpa using h)]
    rfl
  | cons c e1 ih =>
    intro e2 acc rest h
    rw [List.cons_append, backtrackTry.eq_def]
    dsimp only
    rw [ih e2 (acc ++ [c]) rest (by
      intro a b hab ha
      have hthis := h a b hab ha
      simpa using hthis)]
    conv_rhs => rw [backtrackTry.eq_def]
    dsimp only
    cases backtrackTry k (acc ++ [c]) e1 (e2 ++ rest) <;> simp

/-- `[A-Z]` membership. -/
def upperAlphaB (c : Char) : Bool := 'A' ≤ c && c ≤ 'Z'

/-- Executable check for the shape of rendered target types: a nonempty run
of capital letters, optionally followed by a parenthesized nonempty
digit/comma parameter list. -/
def shapeOk (s : List Char) : Bool :=
  !(s.takeWhile upperAlphaB).isEmpty &&
    ((s.dropWhile upperAlphaB).isEmpty ||
      ((s.dropWhile upperAlphaB).head? == some '(' &&
        (s.dropWhile upperAlphaB).getLast? == some ')' &&
        !(((s.dropWhile upperAlphaB).drop 1).dropLast.isEmpty) &&
        ((s.dropWhile upperAlphaB).drop 1).dropLast.all (fun c => c.isDigit || c = ',')))

/-- Structural decomposition coming out of `shapeOk`. -/
theorem shape_of_shapeOk (s : List Char) (h : shapeOk s = true) :
    ∃ L q, s = L ++ q ∧ L ≠ [] ∧ (∀ c ∈ L, upperAlphaB c = true) ∧
      (q = [] ∨ ∃ mq, q = '(' :: (mq ++ [')']) ∧ mq ≠ [] ∧
        ∀ c ∈ mq, (c.isDigit || c = ',') = true) := by
  rw [shapeOk, Bool.and_eq_true] at h
  obtain ⟨h1, h2⟩ := h
  refine ⟨s.takeWhile upperAlphaB, s.dropWhile upperAlphaB,
    (List.takeWhile_append_dropWhile _ _).symm, ?_,
    fun c hc => List.mem_takeWhile_imp hc, ?_⟩
  · intro hnil
    rw [hnil] at h1
    exact absurd h1 (by decide)
  · rw [Bool.or_eq_true] at h2
    rcases h2 with h2 | h2
    · exact Or.inl (List.isEmpty_iff.mp h2)
    · rw [Bool.and_eq_true, Bool.and_eq_true, Bool.and_eq_true] at h2
      obtain ⟨⟨⟨hh, hl⟩, hne⟩, hall⟩ := h2
      right
      cases hq : s.dropWhile upperAlphaB with
      | nil => rw [hq] at hh; exact absurd hh (by decide)
      | cons c0 q1 =>
        rw [hq] at hh hl hne hall
        have hc0 : c0 = '(' := by
          rw [List.head?_cons] at hh
          simpa using hh
        cases hq1 : q1 with
        | nil =>
          rw [hq1, hc0] at hl
          exact absurd hl (by decide)
        | cons c1 q2 =>
          rw [hq1] at hl hne hall
          have hq1ne : c1 :: q2 ≠ [] := by simp
          have hlast : (c1 :: q2).getLast hq1ne = ')' := by
            rw [List.getLast?_cons_cons, List.getLast?_eq_getLast _ hq1ne] at hl
            simpa using hl
          refine ⟨(c1 :: q2).dropLast, ?_, ?_, ?_⟩
          · rw [hc0]
            have := List.dropLast_append_getLast hq1ne
            rw [hlast] at this
            rw [this]
          · simpa using hne
          · intro c hc
            exact List.all_eq_true.mp hall c (by simpa using hc)

/-- A defaulted association-list lookup returns either the default or one of
the stored values. -/
theorem lookup_getD_mem (l : List (String × String)) (d b : String) :
    (l.lookup b).getD d = d ∨ (l.lookup b).getD d ∈ l.map Prod.snd := by
  induction l with
  | nil => left; rfl
  | cons kv l ih =>
    obtain ⟨k, v⟩ := kv
    by_cases hb : (b == k) = true
    · have hl : List.lookup b ((k, v) :: l) = some v := by
        simp [List.lookup, hb]
      rw [hl]
      right
      simp
    · have hb2 : (b == k) = false := by
        cases hx : b == k
        · rfl
        · exact absurd hx hb
      have hl : List.lookup b ((k, v) :: l) = List.lookup b l := by
        simp [List.lookup, hb2]
      rw [hl]
      rcases ih with h | h
      · left; exact h
      · right; simp [h]

/-- Every value of the static type table (and the fallback) has the rendered
type shape. -/
theorem type_mapping_values_shape :
    ∀ v ∈ ("STRING" :: type_mapping.map Prod.snd), shapeOk v.data = true := by decide

/-- Under digit/comma params, every output of `convert_data_type` is a
nonempty run of capital letters optionally followed by a parenthesized
nonempty digit/comma list. -/
theorem convert_shape (ty : String) (p : Option String)
    (hp : digitCommaParams p = true) :
    ∃ L q, (convert_data_type ty p).data = L ++ q ∧ L ≠ [] ∧
      (∀ c ∈ L, upperAlphaB c = true) ∧
      (q = [] ∨ ∃ mq, q = '(' :: (mq ++ [')']) ∧ mq ≠ [] ∧
        ∀ c ∈ mq, (c.isDigit || c = ',') = true) := by
  simp only [convert_data_type]
  by_cases b1 : (String.mk (lowerL ty.data) = "decimal" ∨
      String.mk (lowerL ty.data) = "numeric") ∧ truthyParams p = true
  · rw [if_pos b1]
    cases p with
    | none => exact absurd b1.2 (by decide)
    | some q0 =>
      simp only [digitCommaParams, Bool.and_eq_true] at hp
      obtain ⟨hne, hall⟩ := hp
      refine ⟨"DECIMAL".data, '(' :: (q0.data ++ [')']), ?_, by decide, by decide,
        Or.inr ⟨q0.data, rfl, ?_, ?_⟩⟩
      · show ("DECIMAL(" ++ q0 ++ ")").data = "DECIMAL".data ++ ('(' :: (q0.data ++ [')']))
        rw [String.data_append, String.data_append,
          show "DECIMAL(".data = "DECIMAL".data ++ ['('] from by decide,
          show ")".data = [')'] from by decide]
        simp
      · simpa using hne
      · exact List.all_eq_true.mp hall
  · rw [if_neg b1]
    by_cases b2 : String.mk (lowerL ty.data) = "char" ∨
        String.mk (lowerL ty.data) = "varchar" ∨
        String.mk (lowerL ty.data) = "nchar" ∨
        String.mk (lowerL ty.data) = "nvarchar"
    · rw [if_pos b2]
      exact ⟨"STRING".data, [], by simp, by decide, by decide, Or.inl rfl⟩
    · rw [if_neg b2]
      by_cases b3 : String.mk (lowerL ty.data) = "float" ∧ truthyParams p = true
      · rw [if_pos b3]
        cases hpi : pyInt (p.getD "") with
        | some n =>
          dsimp only
          by_cases hn : n < 25
          · rw [if_pos hn]
            exact ⟨"FLOAT".data, [], by simp, by decide, by decide, Or.inl rfl⟩
          · rw [if_neg hn]
            exact ⟨"DOUBLE".data, [], by simp, by decide, by decide, Or.inl rfl⟩
        | none =>
          dsimp only
          exact ⟨"DOUBLE".data, [], by simp, by decide, by decide, Or.inl rfl⟩
      · rw [if_neg b3]
        rcases lookup_getD_mem type_mapping "STRING" (String.mk (lowerL ty.data))
          with hv | hv
        · rw [hv]
          exact ⟨"STRING".data, [], by simp, by decide, by decide, Or.inl rfl⟩
        · exact shape_of_shapeOk _
            (type_mapping_values_shape _ (List.mem_cons_of_mem _ hv))

/-- A non-bracket character is neither `[` nor `]`. -/
theorem nonBracket_ne (c : Char) (h : nonBracket c = true) : c ≠ '[' ∧ c ≠ ']' := by
  constructor <;> (rintro rfl; exact absurd h (by decide))

/-- A greedy run over an all-matching text is the plain candidate
enumeration. -/
theorem greedyAux_full_run {α : Type} (p : Char → Bool)
    (k : List Char → List Char → Option α) (ext acc : List Char)
    (hext : ∀ c ∈ ext, p c = true) :
    greedyAux p k acc ext = backtrackTry k acc ext [] := by
  have h := greedyAux_eq_backtrackTry p k ext acc [] hext (Or.inl rfl)
  simpa using h

/-- `takeWhile` over an all-matching block stops exactly at the appended
non-matching character. -/
theorem takeWhile_all_append {p : Char → Bool} (A : List Char) (x : Char)
    (B : List Char) (hA : ∀ c ∈ A, p c = true) (hx : p x = false) :
    (A ++ x :: B).takeWhile p = A := by
  induction A with
  | nil => simp [List.takeWhile_cons, hx]
  | cons a A ih =>
    simp [List.takeWhile_cons, hA a (by simp), ih (fun c hc => hA c (by simp [hc]))]

/-- The parameter group on `(mq)` with a well-formed inner text: the inner
run is `mq` and the continuation receives it with nothing left. -/
theorem parenGroup_paren {α : Type} (k : Option (List Char) → List Char → Option α)
    (mq : List Char) (hmq : mq ≠ []) (hc : ∀ c ∈ mq, (c != ')') = true) :
    parenGroup k ('(' :: (mq ++ [')'])) =
      match k (some mq) [] with
      | some r => some r
      | none => k none ('(' :: (mq ++ [')'])) := by
  rw [parenGroup.eq_def]
  dsimp only
  rw [if_pos rfl, takeWhile_all_append mq ')' [] hc (by decide), List.drop_left]
  dsimp only
  rw [if_pos rfl, if_neg hmq]

/-- The tail succeeds immediately on the empty remainder. -/
theorem cmTail_nil (g1 g2 : List Char) (g3 : Option (List Char)) :
    cmTail g1 g2 g3 [] = some (g1, g2, g3, []) := rfl

/-- `cmAfterType` on an empty or well-formed parenthesized remainder yields
the captured groups with an empty modifier text. -/
theorem cmAfterType_success (g1 g2 q : List Char)
    (hq : q = [] ∨ ∃ mq, q = '(' :: (mq ++ [')']) ∧ mq ≠ [] ∧
        ∀ c ∈ mq, (c.isDigit || c = ',') = true) :
    ∃ po, cmAfterType g1 g2 q = some (g1, g2, po, []) := by
  rcases hq with rfl | ⟨mq, rfl, hmq, hmqc⟩
  · exact ⟨none, rfl⟩
  · refine ⟨some mq, ?_⟩
    rw [cmAfterType,
      parenGroup_paren _ mq hmq (fun c hc => (digitComma_facts c (hmqc c hc)).2.2.2.2.2.2),
      cmTail_nil]

/-- `cmSpace` fails whenever the remainder after the name candidate does not
start with whitespace (and does not start with `]`). -/
theorem cmSpace_fail (g1 b : List Char)
    (hb : b = [] ∨ ∃ c2 b2, b = c2 :: b2 ∧ c2 ≠ ']' ∧ pySpace c2 = false) :
    cmSpace g1 b = none := by
  rcases hb with rfl | ⟨c2, b2, rfl, hne, hsp⟩
  · rfl
  · rw [cmSpace, optCh_no hne, greedyPlus_cons_false hsp]

/-- `cmSpace` succeeds on the rendered remainder `' ' :: (L ++ q)`. -/
theorem cmSpace_success (g1 L q : List Char) (hL : L ≠ [])
    (hLc : ∀ c ∈ L, upperAlphaB c = true)
    (hq : q = [] ∨ ∃ mq, q = '(' :: (mq ++ [')']) ∧ mq ≠ [] ∧
        ∀ c ∈ mq, (c.isDigit || c = ',') = true) :
    ∃ po, cmSpace g1 (' ' :: (L ++ q)) = some (g1, L, po, []) := by
  obtain ⟨l0, L1, rfl⟩ : ∃ l0 L1, L = l0 :: L1 := by
    cases L with
    | nil => exact absurd rfl hL
    | cons a b => exact ⟨a, b, rfl⟩
  have hl0 := upperAlpha_facts l0 (hLc l0 (by simp))
  obtain ⟨po, hpo⟩ := cmAfterType_success g1 (l0 :: L1) q hq
  refine ⟨po, ?_⟩
  rw [cmSpace, optCh_no (by decide : (' ' : Char) ≠ ']'),
    greedyPlus_cons_true (by decide : pySpace ' ' = true), List.cons_append,
    greedyAux_cons_false hl0.2.1]
  show cmType g1 ((l0 :: L1) ++ q) = some (g1, l0 :: L1, po, [])
  rw [cmType, List.cons_append, optCh_no hl0.2.2.2.2.2.2.2.2,
    greedyPlus_cons_true hl0.1,
    greedyAux_eq_backtrackTry identChar _ L1 [l0] q
      (fun c hc => (upperAlpha_facts c (hLc c (by simp [hc]))).1) ?_]
  · refine backtrackTry_longest _ L1 [l0] q _ ?_
    show cmAfterType g1 ([l0] ++ L1) q = some (g1, l0 :: L1, po, [])
    simpa using hpo
  · rcases hq with rfl | ⟨mq, rfl, -, -⟩
    · exact Or.inl rfl
    · exact Or.inr ⟨'(', mq ++ [')'], rfl, by decide⟩

/-- The column regex on a rendered line `N TYPE`: the undelimited name `N` is
captured exactly (the greedy name group cannot extend past the single space,
since the remainder must start with whitespace), the type letters and the
optional parameter list are captured, and the modifier text is empty. -/
theorem columnMatch_rendered (N L q : List Char)
    (hN : N ≠ []) (hNc : ∀ c ∈ N, nameChar c = true)
    (hL : L ≠ []) (hLc : ∀ c ∈ L, upperAlphaB c = true)
    (hq : q = [] ∨ ∃ mq, q = '(' :: (mq ++ [')']) ∧ mq ≠ [] ∧
        ∀ c ∈ mq, (c.isDigit || c = ',') = true) :
    ∃ po, columnMatch (N ++ ' ' :: (L ++ q)) = some (N, L, po, []) := by
  have hLqf : ∀ c ∈ L ++ q, c ≠ ']' ∧ pySpace c = false ∧ nonBracket c = true := by
    intro c hc
    rcases List.mem_append.mp hc with hcl | hcq
    · have h := upperAlpha_facts c (hLc c hcl)
      exact ⟨h.2.2.2.2.2.2.2.1, h.2.1, h.2.2.1⟩
    · rcases hq with rfl | ⟨mq, rfl, -, hmqc⟩
      · simp at hcq
      · rcases List.mem_cons.mp hcq with rfl | hcq2
        · exact ⟨by decide, by decide, by decide⟩
        · rcases List.mem_append.mp hcq2 with hcm | hce
          · have h := digitComma_facts c (hmqc c hcm)
            exact ⟨h.2.2.2.2.2.1, h.1, h.2.1⟩
          · have : c = ')' := by simpa using hce
            subst this
            exact ⟨by decide, by decide, by decide⟩
  obtain ⟨n0, N1, rfl⟩ : ∃ n0 N1, N = n0 :: N1 := by
    cases N with
    | nil => exact absurd rfl hN
    | cons a b => exact ⟨a, b, rfl⟩
  have hn0 := nameChar_facts n0 (hNc n0 (by simp))
  have hall : ∀ c ∈ N1 ++ ' ' :: (L ++ q), nonBracket c = true := by
    intro c hc
    rcases List.mem_append.mp hc with hcn | hcs
    · exact (nameChar_facts c (hNc c (by simp [hcn]))).2.1
    · rcases List.mem_cons.mp hcs with rfl | hcq
      · decide
      · exact (hLqf c hcq).2.2
  have hfail : ∀ a b, ' ' :: (L ++ q) = a ++ b → a ≠ [] →
      cmSpace (([n0] ++ N1) ++ a) (b ++ []) = none := by
    intro a b hab ha
    cases a with
    | nil => exact absurd rfl ha
    | cons a0 a2 =>
      rw [List.cons_append] at hab
      have h2 : L ++ q = a2 ++ b := (List.cons.injEq _ _ _ _).mp hab |>.2
      apply cmSpace_fail
      cases b with
      | nil => left; rfl
      | cons c2 b2 =>
        right
        have hc2mem : c2 ∈ L ++ q := by
          rw [h2]
          simp
        refine ⟨c2, b2 ++ [], by simp, (hLqf c2 hc2mem).1, (hLqf c2 hc2mem).2.1⟩
  obtain ⟨po, hpo⟩ := cmSpace_success (n0 :: N1) L q hL hLc hq
  refine ⟨po, ?_⟩
  rw [columnMatch, List.cons_append, optCh_no (nonBracket_ne n0 (hn0.2.1)).1,
    greedyPlus_cons_true hn0.2.1,
    greedyAux_full_run nonBracket _ (N1 ++ ' ' :: (L ++ q)) [n0] hall,
    backtrackTry_split _ N1 (' ' :: (L ++ q)) [n0] [] hfail]
  refine backtrackTry_longest _ N1 [n0] ((' ' :: (L ++ q)) ++ []) _ ?_
  show cmSpace ([n0] ++ N1) ((' ' :: (L ++ q)) ++ []) = some (n0 :: N1, L, po, [])
  simpa using hpo

/-- `dropWhile` is the identity when the head does not match. -/
theorem dropWhile_cons_false {p : Char → Bool} {c : Char} (h : p c = false)
    (s : List Char) : (c :: s).dropWhile p = c :: s := by
  rw [List.dropWhile_cons, if_neg (by simp [h])]

/-- Reversal of a text ending in a non-space character is fixed by
`dropWhile`. -/
theorem dropWhile_reverse_concat (A : List Char) (z : Char)
    (hz : pySpace z = false) :
    (A ++ [z]).reverse.dropWhile pySpace = (A ++ [z]).reverse := by
  rw [List.reverse_append]
  simp only [List.reverse_cons, List.reverse_nil, List.nil_append,
    List.singleton_append]
  exact dropWhile_cons_false hz _

/-- A text with non-space first and last characters is fixed by `strip`. -/
theorem pyStrip_eq_self {l : List Char} (h1 : l.dropWhile pySpace = l)
    (h2 : l.reverse.dropWhile pySpace = l.reverse) : pyStrip l = l := by
  unfold pyStrip
  rw [h1, h2, List.reverse_reverse]

/-- A space-free prefix before an explicit space: if the keyword avoids the
space character, being a prefix of the extended text means being a prefix of
the part before the space. -/
theorem prefix_append_space (A B C : List Char) (h1 : A <+: B ++ ' ' :: C)
    (h2 : ' ' ∉ A) : A <+: B := by
  obtain ⟨t, ht⟩ := h1
  rcases List.append_eq_append_iff.mp ht with ⟨a2, hB, -⟩ | ⟨c2, hA, hC⟩
  · exact ⟨a2, hB.symm⟩
  · cases c2 with
    | nil =>
      rw [List.append_nil] at hA
      rw [hA]
    | cons x c3 =>
      have hx : ' ' = x := by
        rw [List.cons_append] at hC
        exact ((List.cons.injEq _ _ _ _).mp hC).1
      exact absurd (by rw [hA, ← hx]; simp : ' ' ∈ A) h2

/-- Appending a space and more text to a bare identifier cannot create a
constraint-keyword prefix. -/
theorem isConstraintStart_extend (n0 : Char) (N1 rest : List Char)
    (hNc : ∀ c ∈ n0 :: N1, nameChar c = true)
    (hkw : isConstraintStart (n0 :: N1) = false) :
    isConstraintStart ((n0 :: N1) ++ ' ' :: rest) = false := by
  have hn0 := nameChar_facts n0 (hNc n0 (by simp))
  rw [isConstraintStart, List.any_eq_false] at hkw ⊢
  intro kw hkwmem
  have hkN := hkw kw hkwmem
  have hd1 : ((n0 :: N1) ++ ' ' :: rest).dropWhile pySpace =
      (n0 :: N1) ++ ' ' :: rest := by
    rw [List.cons_append]
    exact dropWhile_cons_false hn0.1 _
  have hd2 : (n0 :: N1).dropWhile pySpace = n0 :: N1 := dropWhile_cons_false hn0.1 _
  rw [hd1]
  rw [hd2] at hkN
  intro hpre
  apply hkN
  rw [List.isPrefixOf_iff_prefix] at hpre ⊢
  have hsp : asciiUpper ' ' = ' ' := by decide
  have hup : upperL ((n0 :: N1) ++ ' ' :: rest) =
      upperL (n0 :: N1) ++ ' ' :: upperL rest := by
    simp [upperL, hsp]
  rw [hup] at hpre
  refine prefix_append_space _ _ _ hpre ?_
  have hnos : ∀ kw2 ∈ constraintKeywords, ' ' ∉ kw2.data := by decide
  exact hnos kw hkwmem

/-- `contains` is false for an absent element. -/
theorem contains_eq_false_of_not_mem {a : Char} {l : List Char} (h : a ∉ l) :
    l.contains a = false := by
  cases hc : l.contains a
  · rfl
  · exact absurd (List.elem_iff.mp hc) h

/-- The per-fragment parse of a rendered line `N TYPE` yields a column whose
name is exactly `N` and whose nullable flag is `true` (the modifier group is
empty). -/
theorem processLine_rendered (N L q : List Char)
    (hN : N ≠ []) (hNc : ∀ c ∈ N, nameChar c = true)
    (hNkw : isConstraintStart N = false)
    (hL : L ≠ []) (hLc : ∀ c ∈ L, upperAlphaB c = true)
    (hq : q = [] ∨ ∃ mq, q = '(' :: (mq ++ [')']) ∧ mq ≠ [] ∧
        ∀ c ∈ mq, (c.isDigit || c = ',') = true) :
    ∃ col, processLine (N ++ ' ' :: (L ++ q)) = some col ∧
      col.name = String.mk N ∧ col.nullable = true := by
  obtain ⟨n0, N1, rfl⟩ : ∃ n0 N1, N = n0 :: N1 := by
    cases N with
    | nil => exact absurd rfl hN
    | cons a b => exact ⟨a, b, rfl⟩
  have hn0 := nameChar_facts n0 (hNc n0 (by simp))
  have hd1 : ((n0 :: N1) ++ ' ' :: (L ++ q)).dropWhile pySpace =
      (n0 :: N1) ++ ' ' :: (L ++ q) := by
    rw [List.cons_append]
    exact dropWhile_cons_false hn0.1 _
  have hd2 : ((n0 :: N1) ++ ' ' :: (L ++ q)).reverse.dropWhile pySpace =
      ((n0 :: N1) ++ ' ' :: (L ++ q)).reverse := by
    rcases hq with rfl | ⟨mq, rfl, -, -⟩
    · obtain ⟨z, hzmem, hdec⟩ : ∃ z, z ∈ L ∧ L.dropLast ++ [z] = L :=
        ⟨L.getLast hL, List.getLast_mem hL, List.dropLast_append_getLast hL⟩
      have hz : pySpace z = false := (upperAlpha_facts z (hLc z hzmem)).2.1
      have hshape : (n0 :: N1) ++ ' ' :: (L ++ []) =
          ((n0 :: N1) ++ ' ' :: L.dropLast) ++ [z] := by
        rw [← hdec]
        simp
      rw [hshape]
      exact dropWhile_reverse_concat _ z hz
    · have hshape : (n0 :: N1) ++ ' ' :: (L ++ '(' :: (mq ++ [')'])) =
          ((n0 :: N1) ++ ' ' :: (L ++ '(' :: mq)) ++ [')'] := by
        simp
      rw [hshape]
      exact dropWhile_reverse_concat _ ')' (by decide)
  have hstrip : pyStrip ((n0 :: N1) ++ ' ' :: (L ++ q)) =
      (n0 :: N1) ++ ' ' :: (L ++ q) := pyStrip_eq_self hd1 hd2
  have hne : (n0 :: N1) ++ ' ' :: (L ++ q) ≠ [] := by simp
  have hcs : isConstraintStart ((n0 :: N1) ++ ' ' :: (L ++ q)) = false :=
    isConstraintStart_extend n0 N1 (L ++ q) hNc hNkw
  have hoa : isOptionAssignment ((n0 :: N1) ++ ' ' :: (L ++ q)) = false := by
    have hnomem : '=' ∉ (n0 :: N1) ++ ' ' :: (L ++ q) := by
      intro hmem
      rcases List.mem_append.mp hmem with hmn | hms
      · exact (nameChar_facts '=' (hNc '=' hmn)).2.2.2.2.2.1 rfl
      · rcases List.mem_cons.mp hms with heq | hmq2
        · exact absurd heq.symm (by decide)
        · rcases List.mem_append.mp hmq2 with hml | hmq3
          · exact (upperAlpha_facts '=' (hLc '=' hml)).2.2.2.2.2.2.1 rfl
          · rcases hq with rfl | ⟨mq, rfl, -, hmqc⟩
            · simp at hmq3
            · rcases List.mem_cons.mp hmq3 with heq2 | hmq4
              · exact absurd heq2.symm (by decide)
              · rcases List.mem_append.mp hmq4 with hmm | hmr
                · exact (digitComma_facts '=' (hmqc '=' hmm)).2.2.2.2.1 rfl
                · rw [List.mem_singleton] at hmr
                  exact absurd hmr (by decide)
    rw [isOptionAssignment, contains_eq_false_of_not_mem hnomem]
    rfl
  obtain ⟨po, hcm⟩ := columnMatch_rendered (n0 :: N1) L q hN hNc hL hLc hq
  refine ⟨buildColumn (n0 :: N1) L po [], ?_, rfl, rfl⟩
  simp only [processLine, hstrip, hcs, hoa, hcm]
  rw [if_neg hne]
  simp

/-- Depth scan of one fragment: final depth, or `none` if a depth-0 comma
(a split point) occurs inside. -/
def scanBal (d : Int) : List Char → Option Int
  | [] => some d
  | c :: r =>
    if c = '(' then scanBal (d + 1) r
    else if c = ')' then scanBal (d - 1) r
    else if c = ',' ∧ d = 0 then none
    else scanBal d r

/-- Step of `scanBal` on `(`. -/
theorem scanBal_cons_open {c : Char} (hc : c = '(') (d : Int) (r : List Char) :
    scanBal d (c :: r) = scanBal (d + 1) r := by subst hc; rfl

/-- Step of `scanBal` on `)`. -/
theorem scanBal_cons_close {c : Char} (hc : c = ')') (d : Int) (r : List Char) :
    scanBal d (c :: r) = scanBal (d - 1) r := by subst hc; rfl

/-- Step of `scanBal` on any other non-splitting character. -/
theorem scanBal_cons_other {c : Char} {d : Int} (hc1 : c ≠ '(') (hc2 : c ≠ ')')
    (hc3 : ¬(c = ',' ∧ d = 0)) (r : List Char) :
    scanBal d (c :: r) = scanBal d r := by
  rw [scanBal.eq_def]
  dsimp only
  rw [if_neg hc1, if_neg hc2, if_neg hc3]

/-- A split-free fragment is consumed whole into the current accumulator. -/
theorem smartSplitGo_scan :
    ∀ (line : List Char) (d d' : Int) (cur : List Char) (parts : List (List Char))
      (rest : List Char),
      scanBal d line = some d' →
      smartSplitGo d cur parts (line ++ rest) = smartSplitGo d' (cur ++ line) parts rest := by
  intro line
  induction line with
  | nil =>
    intro d d' cur parts rest h
    have hd : d = d' := Option.some.inj h
    subst hd
    simp
  | cons c line ih =>
    intro d d' cur parts rest h
    by_cases hc1 : c = '('
    · rw [scanBal_cons_open hc1] at h
      rw [List.cons_append, smartSplitGo_cons_open hc1, ih (d + 1) d' _ parts rest h]
      simp
    · by_cases hc2 : c = ')'
      · rw [scanBal_cons_close hc2] at h
        rw [List.cons_append, smartSplitGo_cons_close hc2, ih (d - 1) d' _ parts rest h]
        simp
      · by_cases hc3 : c = ',' ∧ d = 0
        · rw [scanBal.eq_def] at h
          dsimp only at h
          rw [if_neg hc1, if_neg hc2, if_pos hc3] at h
          exact absurd h (by simp)
        · rw [scanBal_cons_other hc1 hc2 hc3] at h
          rw [List.cons_append, smartSplitGo_cons_other hc1 hc2 hc3, ih d d' _ parts rest h]
          simp

/-- Stripping discards a leading whitespace character. -/
theorem pyStrip_cons_space {c : Char} (h : pySpace c = true) (l : List Char) :
    pyStrip (c :: l) = pyStrip l := by
  unfold pyStrip
  rw [List.dropWhile_cons, if_pos (by simp [h])]

/-- List-level rendering of `',\n'.join`. -/
def joinData : List (List Char) → List Char
  | [] => []
  | [l] => l
  | l :: ls => l ++ ',' :: '\n' :: joinData ls

/-- `joinCommaNl` at the character level. -/
theorem joinCommaNl_data :
    ∀ ss : List String, (joinCommaNl ss).data = joinData (ss.map String.data) := by
  intro ss
  induction ss with
  | nil => rfl
  | cons s ss ih =>
    cases ss with
    | nil => rfl
    | cons s2 ss2 =>
      show (s ++ ",\n" ++ joinCommaNl (s2 :: ss2)).data = _
      rw [String.data_append, String.data_append, ih,
        show (",\n" : String).data = [',', '\n'] from by decide,
        show joinData (List.map String.data (s :: s2 :: ss2)) =
          s.data ++ ',' :: '\n' :: joinData (List.map String.data (s2 :: ss2)) from rfl,
        List.append_assoc]
      rfl

/-- The smart split of a joined list of balanced, split-free fragments
recovers the stripped fragments. -/
theorem smartSplit_joined :
    ∀ (ls : List (List Char)) (l cur : List Char),
      scanBal 0 l = some 0 → (∀ x ∈ ls, scanBal 0 x = some 0) →
      cur ++ l ≠ [] →
      smartSplitGo 0 cur [] (joinData (l :: ls)) =
        pyStrip (cur ++ l) :: ls.map pyStrip := by
  intro ls
  induction ls with
  | nil =>
    intro l cur hl _ hne
    have hj : joinData [l] = l := rfl
    rw [hj]
    have hs := smartSplitGo_scan l 0 0 cur [] [] hl
    rw [List.append_nil] at hs
    rw [hs, smartSplitGo_nil, if_neg hne]
    simp
  | cons l2 ls ih =>
    intro l cur hl hls hne
    have hj : joinData (l :: l2 :: ls) = l ++ ',' :: '\n' :: joinData (l2 :: ls) := rfl
    rw [hj, smartSplitGo_scan l 0 0 cur [] (',' :: '\n' :: joinData (l2 :: ls)) hl,
      smartSplitGo_cons_comma rfl rfl (cur ++ l) [] _,
      smartSplitGo_parts _ 0 [] _,
      smartSplitGo_cons_other (by decide) (by decide)
        (fun hx => absurd hx.1 (by decide)) [] [] _]
    simp only [List.nil_append]
    rw [ih l2 ['\n'] (hls l2 (by simp)) (fun x hx => hls x (by simp [hx])) (by simp),
      show (['\n'] ++ l2 : List Char) = '\n' :: l2 from rfl,
      pyStrip_cons_space (by decide) l2]
    simp

/-- `scanBal` ignores characters that are neither parentheses nor commas. -/
theorem scanBal_skip :
    ∀ (A : List Char) (d : Int) (B : List Char),
      (∀ ch ∈ A, ch ≠ '(' ∧ ch ≠ ')' ∧ ch ≠ ',') →
      scanBal d (A ++ B) = scanBal d B := by
  intro A
  induction A with
  | nil => intro d B _; rfl
  | cons c A ih =>
    intro d B hA
    obtain ⟨h1, h2, h3⟩ := hA c (by simp)
    rw [List.cons_append, scanBal_cons_other h1 h2 (fun hx => h3 hx.1),
      ih d B (fun x hx => hA x (by simp [hx]))]

/-- At nonzero depth, `scanBal` also ignores commas. -/
theorem scanBal_skip_nonzero :
    ∀ (A : List Char) (d : Int) (B : List Char),
      (∀ ch ∈ A, ch ≠ '(' ∧ ch ≠ ')') → d ≠ 0 →
      scanBal d (A ++ B) = scanBal d B := by
  intro A
  induction A with
  | nil => intro d B _ _; rfl
  | cons c A ih =>
    intro d B hA hd
    obtain ⟨h1, h2⟩ := hA c (by simp)
    rw [List.cons_append, scanBal_cons_other h1 h2 (fun hx => hd hx.2),
      ih d B (fun x hx => hA x (by simp [hx])) hd]

/-- Decomposition of a rendered column line under the round-trip
hypotheses: two leading spaces, the bare name, one space, and the rendered
type. -/
theorem columnLine_decomp (c : ColumnDefinition)
    (hn : bareIdent c.name.data = true)
    (hp : digitCommaParams c.params = true)
    (hnul : c.nullable = true) :
    ∃ N L q, (columnLine c).data = ' ' :: ' ' :: (N ++ ' ' :: (L ++ q)) ∧
      N = c.name.data ∧ N ≠ [] ∧ (∀ ch ∈ N, nameChar ch = true) ∧
      isConstraintStart N = false ∧ L ≠ [] ∧ (∀ ch ∈ L, upperAlphaB ch = true) ∧
      (q = [] ∨ ∃ mq, q = '(' :: (mq ++ [')']) ∧ mq ≠ [] ∧
        ∀ ch ∈ mq, (ch.isDigit || ch = ',') = true) := by
  obtain ⟨L, q, hT, hL, hLc, hq⟩ := convert_shape c.type c.params hp
  simp only [bareIdent, Bool.and_eq_true] at hn
  obtain ⟨⟨hn1, hn2⟩, hn3⟩ := hn
  refine ⟨c.name.data, L, q, ?_, rfl, by simpa using hn1,
    List.all_eq_true.mp hn2, by simpa using hn3, hL, hLc, hq⟩
  show ("  " ++ c.name ++ " " ++ convert_data_type c.type c.params ++
      (if c.nullable then "" else " NOT NULL")).data = _
  rw [hnul]
  simp only [if_true, String.data_append]
  rw [hT]
  simp

/-- A rendered column line is split-free and balanced. -/
theorem columnLine_scanBal (c : ColumnDefinition)
    (hn : bareIdent c.name.data = true)
    (hp : digitCommaParams c.params = true)
    (hnul : c.nullable = true) :
    scanBal 0 (columnLine c).data = some 0 := by
  obtain ⟨N, L, q, hdata, -, -, hNc, -, -, hLc, hq⟩ := columnLine_decomp c hn hp hnul
  rw [hdata,
    scanBal_cons_other (by decide) (by decide) (fun hx => absurd hx.1 (by decide)) _,
    scanBal_cons_other (by decide) (by decide) (fun hx => absurd hx.1 (by decide)) _,
    scanBal_skip N 0 _ (fun x hx => by
      have h := nameChar_facts x (hNc x hx)
      exact ⟨h.2.2.1, h.2.2.2.1, h.2.2.2.2.1⟩),
    scanBal_cons_other (by decide) (by decide) (fun hx => absurd hx.1 (by decide)) _,
    scanBal_skip L 0 q (fun x hx => by
      have h := upperAlpha_facts x (hLc x hx)
      exact ⟨h.2.2.2.1, h.2.2.2.2.1, h.2.2.2.2.2.1⟩)]
  rcases hq with rfl | ⟨mq, rfl, -, hmqc⟩
  · rfl
  · rw [scanBal_cons_open rfl, show (0 : Int) + 1 = 1 from by norm_num,
      scanBal_skip_nonzero mq 1 [')'] (fun x hx => by
        have h := digitComma_facts x (hmqc x hx)
        exact ⟨h.2.2.1, h.2.2.2.1⟩) (by omega),
      scanBal_cons_close rfl]
    rfl

/-- The core of a rendered line, `N TYPE`, is fixed by `strip`: it starts
with an identifier character and ends with a letter or `)`. -/
theorem rendered_core_strip (N L q : List Char) (hN : N ≠ [])
    (hNc : ∀ ch ∈ N, nameChar ch = true)
    (hL : L ≠ []) (hLc : ∀ ch ∈ L, upperAlphaB ch = true)
    (hq : q = [] ∨ ∃ mq, q = '(' :: (mq ++ [')']) ∧ mq ≠ [] ∧
        ∀ ch ∈ mq, (ch.isDigit || ch = ',') = true) :
    pyStrip (N ++ ' ' :: (L ++ q)) = N ++ ' ' :: (L ++ q) := by
  obtain ⟨n0, N1, rfl⟩ : ∃ n0 N1, N = n0 :: N1 := by
    cases N with
    | nil => exact absurd rfl hN
    | cons a b => exact ⟨a, b, rfl⟩
  have hd1 : ((n0 :: N1) ++ ' ' :: (L ++ q)).dropWhile pySpace =
      (n0 :: N1) ++ ' ' :: (L ++ q) := by
    rw [List.cons_append]
    exact dropWhile_cons_false (nameChar_facts n0 (hNc n0 (by simp))).1 _
  have hd2 : ((n0 :: N1) ++ ' ' :: (L ++ q)).reverse.dropWhile pySpace =
      ((n0 :: N1) ++ ' ' :: (L ++ q)).reverse := by
    rcases hq with rfl | ⟨mq, rfl, -, -⟩
    · obtain ⟨z, hzmem, hdec⟩ : ∃ z, z ∈ L ∧ L.dropLast ++ [z] = L :=
        ⟨L.getLast hL, List.getLast_mem hL, List.dropLast_append_getLast hL⟩
      have hz : pySpace z = false := (upperAlpha_facts z (hLc z hzmem)).2.1
      have hshape : (n0 :: N1) ++ ' ' :: (L ++ []) =
          ((n0 :: N1) ++ ' ' :: L.dropLast) ++ [z] := by
        rw [← hdec]
        simp
      rw [hshape]
      exact dropWhile_reverse_concat _ z hz
    · have hshape : (n0 :: N1) ++ ' ' :: (L ++ '(' :: (mq ++ [')'])) =
          ((n0 :: N1) ++ ' ' :: (L ++ '(' :: mq)) ++ [')'] := by
        simp
      rw [hshape]
      exact dropWhile_reverse_concat _ ')' (by decide)
  exact pyStrip_eq_self hd1 hd2

/-- Full per-column fact: the rendered line parses back to a column carrying
the same name and (true) nullability. -/
theorem columnLine_roundtrip (c : ColumnDefinition)
    (hn : bareIdent c.name.data = true)
    (hp : digitCommaParams c.params = true)
    (hnul : c.nullable = true) :
    ∃ col, processLine (pyStrip (columnLine c).data) = some col ∧
      col.name = c.name ∧ col.nullable = true := by
  obtain ⟨N, L, q, hdata, hNeq, hN, hNc, hNkw, hL, hLc, hq⟩ :=
    columnLine_decomp c hn hp hnul
  obtain ⟨col, hpl, hname, hnull⟩ := processLine_rendered N L q hN hNc hNkw hL hLc hq
  refine ⟨col, ?_, ?_, hnull⟩
  · rw [hdata, pyStrip_cons_space (by decide), pyStrip_cons_space (by decide),
      rendered_core_strip N L q hN hNc hL hLc hq]
    exact hpl
  · rw [hname, hNeq]

/-! ## C4: render / re-parse round trip -/

/-- Re-parsing the stripped rendered lines recovers the name and nullability
sequences, one column at a time. -/
theorem filterMap_processLine_rendered :
    ∀ cols : List ColumnDefinition,
      (∀ c ∈ cols, bareIdent c.name.data = true ∧
        digitCommaParams c.params = true ∧ c.nullable = true) →
      ((cols.map (fun c => pyStrip (columnLine c).data)).filterMap
            processLine).map ColumnDefinition.name =
          cols.map ColumnDefinition.name ∧
      ((cols.map (fun c => pyStrip (columnLine c).data)).filterMap
            processLine).map ColumnDefinition.nullable =
          cols.map ColumnDefinition.nullable := by
  intro cols
  induction cols with
  | nil => intro _; exact ⟨rfl, rfl⟩
  | cons c cs ih =>
    intro h
    obtain ⟨h1, h2, h3⟩ := h c (by simp)
    obtain ⟨col, hpl, hname, hnull⟩ := columnLine_roundtrip c h1 h2 h3
    have ihr := ih (fun x hx => h x (by simp [hx]))
    simp only [List.map_cons, List.filterMap_cons, hpl]
    simp only [List.filterMap_map] at ihr
    exact ⟨by simp [hname, ihr.1], by simp [hnull, h3, ihr.2]⟩

/-- C4 (counterexample): the round trip is not the identity on names or
nullability. The table `c4table` has the single column `Id`, type `int`, not
nullable; its rendered line `  Id INT NOT NULL` re-parses with the greedy
name group swallowing `Id INT NOT`, leaving `NULL` as the type and an empty
modifier string, so the re-parsed column is nullable. -/
theorem c4_counterexample :
    parse_columns (columnSection c4table).data =
      [⟨"Id INT NOT", "null", none, true⟩] ∧
    (parse_columns (columnSection c4table).data).map ColumnDefinition.name ≠
      c4table.columns.map ColumnDefinition.name ∧
    (parse_columns (columnSection c4table).data).map ColumnDefinition.nullable ≠
      c4table.columns.map ColumnDefinition.nullable := by
  decide

/-- C4 (amended): for every TableDefinition whose columns all have bare
identifier names (nonempty, alphanumeric/underscore, not starting with a
constraint keyword), parameter lists made of digits and commas (or absent),
and nullable set, rendering the table and re-parsing the rendered column
section with the column parser yields the same sequence of column names and
the same nullability flags as the original. -/
theorem c4_amended (t : TableDefinition)
    (h : ∀ c ∈ t.columns, bareIdent c.name.data = true ∧
      digitCommaParams c.params = true ∧ c.nullable = true) :
    (parse_columns (columnSection t).data).map ColumnDefinition.name =
      t.columns.map ColumnDefinition.name ∧
    (parse_columns (columnSection t).data).map ColumnDefinition.nullable =
      t.columns.map ColumnDefinition.nullable := by
  cases htc : t.columns with
  | nil =>
    have hsec : columnSection t = "" := by rw [columnSection, htc]; rfl
    rw [hsec]
    exact ⟨by decide, by decide⟩
  | cons c cs =>
    rw [htc] at h
    obtain ⟨hc1, hc2, hc3⟩ := h c (by simp)
    have hraw : (columnSection t).data =
        joinData ((columnLine c).data :: cs.map (fun d => (columnLine d).data)) := by
      rw [columnSection, htc, joinCommaNl_data]
      simp only [List.map_cons, List.map_map]
      rfl
    have hne : ([] : List Char) ++ (columnLine c).data ≠ [] := by
      obtain ⟨N, L, q, hdata, -⟩ := columnLine_decomp c hc1 hc2 hc3
      rw [List.nil_append, hdata]
      simp
    have hall : ∀ x ∈ cs.map (fun d => (columnLine d).data),
        scanBal 0 x = some 0 := by
      intro x hx
      obtain ⟨d, hd, rfl⟩ := List.mem_map.mp hx
      obtain ⟨hd1, hd2, hd3⟩ := h d (by simp [hd])
      exact columnLine_scanBal d hd1 hd2 hd3
    have hsplit : smart_split (columnSection t).data =
        (c :: cs).map (fun d => pyStrip (columnLine d).data) := by
      rw [smart_split, hraw,
        smartSplit_joined (cs.map fun d => (columnLine d).data)
          (columnLine c).data [] (columnLine_scanBal c hc1 hc2 hc3) hall hne]
      simp only [List.nil_append, List.map_map, List.map_cons]
      rfl
    rw [parse_columns_eq_filterMap, hsplit]
    exact filterMap_processLine_rendered (c :: cs) h

/-- A concrete two-column table for exercising the amended round trip. -/
def c4wtable : TableDefinition :=
  ⟨some "dbo", "T2",
    [⟨"Id", "int", none, true⟩, ⟨"Amount", "decimal", some "10,2", true⟩]⟩

/-- C4 (witness): the amended round trip at a concrete two-column table. -/
theorem c4_witness :
    (∀ c ∈ c4wtable.columns, bareIdent c.name.data = true ∧
      digitCommaParams c.params = true ∧ c.nullable = true) ∧
    ((parse_columns (columnSection c4wtable).data).map ColumnDefinition.name =
      c4wtable.columns.map ColumnDefinition.name ∧
    (parse_columns (columnSection c4wtable).data).map ColumnDefinition.nullable =
      c4wtable.columns.map ColumnDefinition.nullable) :=
  ⟨by decide, c4_amended c4wtable (by decide)⟩
